import Mathlib

/-
Verification of the storage abstraction layer of the DECODE_Cloud_UserAPI
repository (`api/core/filesystem.py`) and of the error translation in its
routing layer (`api/endpoints/files.py`).

Paths and object keys are embedded as `List Char` (the code manipulates
Python `str` values; all the relevant operations are character-wise).
The two backends are embedded as explicit state-passing functions:

* `S3Filesystem`  -> an object store state `S3State` (a key/size association
  list; `put` overwrites, listings are sorted lexicographically as S3 does);
* `LocalFilesystem` -> a POSIX-tree state `LocalState` holding the set of
  directories and files, keyed by their resolved path components (the way the
  OS resolves `.` components, repeated and trailing slashes).

Fallible operations return `Except FsErr`.
-/

namespace DecodeUserAPI

/-- Equality of `Except` results is decidable componentwise. -/
instance {ε α : Type} [DecidableEq ε] [DecidableEq α] : DecidableEq (Except ε α) :=
  fun x y =>
    match x, y with
    | .ok a, .ok b =>
      if h : a = b then .isTrue (by rw [h])
      else .isFalse (fun hh => h (Except.ok.inj hh))
    | .error a, .error b =>
      if h : a = b then .isTrue (by rw [h])
      else .isFalse (fun hh => h (Except.error.inj hh))
    | .ok _, .error _ => .isFalse (fun hh => Except.noConfusion hh)
    | .error _, .ok _ => .isFalse (fun hh => Except.noConfusion hh)

/-- Character list of a string literal (paths are embedded as `List Char`). -/
def chars (s : String) : List Char := s.data

/-- Python `s.endswith("/")`. -/
def endsSlash (s : List Char) : Bool := s.getLast? = some '/'

/-- Python `s.startswith("/")`. -/
def startsSlash (s : List Char) : Bool := s.head? = some '/'

/-- Python `s.split("/")` (keeps empty pieces). -/
def splitSlash : List Char → List (List Char)
  | [] => [[]]
  | c :: cs =>
    match splitSlash cs with
    | [] => [[]]
    | g :: gs => if c = '/' then [] :: g :: gs else (c :: g) :: gs

/-- `"/".join(pieces)`. -/
def joinSlash : List (List Char) → List Char
  | [] => []
  | [x] => x
  | x :: xs => x ++ '/' :: joinSlash xs

/-- Python `s.strip("/")`. -/
def stripSlashes (s : List Char) : List Char :=
  ((s.dropWhile (· = '/')).reverse.dropWhile (· = '/')).reverse

/-- The components a POSIX path resolves to: split on `/`, dropping empty
pieces and `.` pieces (this is what `PurePosixPath` keeps and what the OS
resolves `a//b` and `a/./b` to). -/
def pathComps (s : List Char) : List (List Char) :=
  (splitSlash s).filter (fun c => !c.isEmpty && c ≠ ['.'])

/-- Lexicographic order on character lists (S3 lists keys in this order). -/
def lexLe : List Char → List Char → Bool
  | [], _ => true
  | _ :: _, [] => false
  | a :: as, b :: bs => if a = b then lexLe as bs else decide (a < b)

/-- Insertion into a lexicographically sorted list. -/
def insertLe (x : List Char) : List (List Char) → List (List Char)
  | [] => [x]
  | y :: ys => if lexLe x y then x :: y :: ys else y :: insertLe x ys

/-- Lexicographic (stable, insertion) sort of key lists. -/
def sortKeys : List (List Char) → List (List Char)
  | [] => []
  | x :: xs => insertLe x (sortKeys xs)

/-- Insertion into a list of keyed objects sorted by key. -/
def insertObjLe (x : List Char × Nat) : List (List Char × Nat) → List (List Char × Nat)
  | [] => [x]
  | y :: ys => if lexLe x.1 y.1 then x :: y :: ys else y :: insertObjLe x ys

/-- Sort keyed objects by key, as S3 listings return them. -/
def sortObjs : List (List Char × Nat) → List (List Char × Nat)
  | [] => []
  | x :: xs => insertObjLe x (sortObjs xs)

/-- Decimal digit character. -/
def digitChar (n : Nat) : Char :=
  if n = 0 then '0' else if n = 1 then '1' else if n = 2 then '2'
  else if n = 3 then '3' else if n = 4 then '4' else if n = 5 then '5'
  else if n = 6 then '6' else if n = 7 then '7' else if n = 8 then '8' else '9'

/-- Decimal rendering of a natural number (fuel-structured so it evaluates). -/
def natCharsAux : Nat → Nat → List Char
  | 0, _ => []
  | f + 1, n =>
    if n < 10 then [digitChar n]
    else natCharsAux f (n / 10) ++ [digitChar (n % 10)]

/-- Decimal rendering of a natural number, e.g. `natChars 20 = "20"`. -/
def natChars (n : Nat) : List Char := natCharsAux (n + 1) n

/-- `"%.1f" % (num/den)` on an exact nonnegative rational, with Python's
round-half-even tie-breaking (the IEEE-double rounding of the original is
modelled by exact rational rounding). -/
def fmt1f (num den : Nat) : List Char :=
  let t0 := num * 10 / den
  let r := num * 10 % den
  let t : Nat :=
    if 2 * r < den then t0
    else if 2 * r > den then t0 + 1
    else if t0 % 2 = 0 then t0 else t0 + 1
  natChars (t / 10) ++ '.' :: natChars (t % 10)

/-- The decimal suffixes used by `humanize.naturalsize`. -/
def sizeSuffixes : List (List Char) :=
  [chars "kB", chars "MB", chars "GB", chars "TB",
   chars "PB", chars "EB", chars "ZB", chars "YB"]

/-- The suffix loop of `humanize.naturalsize`: the first suffix whose unit
`1000^(i+2)` exceeds `n` (falling back to the last suffix), rendering
`1000*n/unit` with one decimal. -/
def naturalsizePick (n : Nat) : Nat → List (List Char) → List Char
  | _, [] => []
  | i, [s] => fmt1f (1000 * n) (1000 ^ (i + 2)) ++ ' ' :: s
  | i, s :: rest =>
    if n < 1000 ^ (i + 2) then fmt1f (1000 * n) (1000 ^ (i + 2)) ++ ' ' :: s
    else naturalsizePick n (i + 1) rest

/-- `humanize.naturalsize(n)` (decimal, base 1000, format `"%.1f"`):
`1 -> "1 Byte"`, `n < 1000 -> "<n> Bytes"`, otherwise the suffix loop. -/
def naturalsize (n : Nat) : List Char :=
  if n = 1 then chars "1 Byte"
  else if n < 1000 then natChars n ++ chars " Bytes"
  else naturalsizePick n 0 sizeSuffixes

/-- `api.schemas.file.FileTypes`. -/
inductive FileTypes
  | file
  | directory
deriving DecidableEq, Repr

/-- `api.schemas.file.FileInfo`. -/
structure FileInfo where
  path : List Char
  type : FileTypes
  size : List Char
deriving DecidableEq, Repr

/-- Discriminable error kinds of the storage layer: the Python exceptions
`FileNotFoundError`, `IsADirectoryError`, `NotADirectoryError`, plus
backend/OS failures (botocore `ClientError`, `OSError`) that the layer does
not translate. -/
inductive FsErr
  | notFound
  | isADirectory
  | notADirectory
  | clientError
  | osError
deriving DecidableEq, Repr

/-- `FileSystem.full_path`: `str(PurePosixPath(root_path, path[1:] if
path.startswith("/") else path))`, with the trailing slash of `path` put
back.  A `path` that is still absolute after dropping one leading slash
overrides the root, as `PurePosixPath` does.  `root` is taken to be an
already-normalized path (the factory builds it with `pathlib.Path`). -/
def full_path (root p : List Char) : List Char :=
  let q := if startsSlash p then p.tail else p
  let base :=
    if startsSlash q then '/' :: joinSlash (pathComps q)
    else
      match pathComps q with
      | [] => root
      | comps => root ++ '/' :: joinSlash comps
  if endsSlash p then base ++ ['/'] else base

/-- The production predefined directories:
`[e.value for e in UploadFileTypes] + [e.value for e in OutputEndpoints]`
(note `artifact` occurs in both enums). -/
def predefDirs : List (List Char) :=
  [chars "config", chars "data", chars "artifact",
   chars "output", chars "log", chars "artifact"]

/-! ### The flat-namespace backend (`S3Filesystem`)

The bucket is a set of keys with sizes, embedded as an association list on
which `put` overwrites.  Listings sort by key, as S3 responses do. -/

/-- The object-store state: keys with object sizes. -/
structure S3State where
  objs : List (List Char × Nat)
deriving DecidableEq, Repr

/-- `put_object` / `upload_fileobj`: stores (overwrites) a key. -/
def putObject (st : S3State) (k : List Char) (sz : Nat) : S3State :=
  ⟨(k, sz) :: st.objs.eraseP (fun o => o.1 = k)⟩

/-- `delete_object`: removes a key (a no-op when the key is absent). -/
def deleteObject (st : S3State) (k : List Char) : S3State :=
  ⟨st.objs.filter (fun o => !(o.1 = k : Bool))⟩

/-- The keys (with sizes) under a prefix, sorted, as `list_objects_v2`
returns them. -/
def listUnder (st : S3State) (pfx : List Char) : List (List Char × Nat) :=
  sortObjs (st.objs.filter (fun o => pfx.isPrefixOf o.1))

/-- `S3Filesystem.exists`: `list_objects_v2(Prefix=full_path(path),
MaxKeys=1)` has contents, i.e. some stored key extends `full_path(path)`. -/
def s3Exists (root : List Char) (st : S3State) (p : List Char) : Bool :=
  st.objs.any (fun o => (full_path root p).isPrefixOf o.1)

/-- `S3Filesystem.isdir`: the literal path `"/"`, or an existing path that
ends with `"/"`. -/
def s3Isdir (root : List Char) (st : S3State) (p : List Char) : Bool :=
  p = chars "/" || (s3Exists root st p && endsSlash p)

/-- `S3Filesystem.create_directory`: writes a zero-byte marker object at the
directory's full path. -/
def s3CreateDirectory (root : List Char) (st : S3State) (p : List Char) : S3State :=
  putObject st (full_path root p) 0

/-- `S3Filesystem.create_file`: uploads the byte stream (here: its length)
to the file's full path. -/
def s3CreateFile (root : List Char) (st : S3State) (p : List Char) (sz : Nat) : S3State :=
  putObject st (full_path root p) sz

/-- `FileSystem.init` for the flat backend: `create_directory(dir + "/")`
for every predefined directory and then for `""`. -/
def s3Init (root : List Char) (pd : List (List Char)) (st : S3State) : S3State :=
  (pd ++ [[]]).foldl (fun s d => s3CreateDirectory root s (d ++ ['/'])) st

/-- `S3Filesystem._delete_file`. -/
def s3DeleteFile (root : List Char) (st : S3State) (p : List Char) : S3State :=
  deleteObject st (full_path root p)

/-- `S3Filesystem._delete_directory`: batch-deletes every key under the
directory's full path. -/
def s3DeleteDirectory (root : List Char) (st : S3State) (p : List Char) : S3State :=
  ⟨st.objs.filter (fun o => !(full_path root p).isPrefixOf o.1)⟩

/-- `FileSystem.delete` (with the default `reinit_if_root=True`) resolved on
the flat backend: no-op on an absent path; a directory is deleted recursively
and the root / a predefined directory is recreated; otherwise a single object
delete. -/
def s3Delete (root : List Char) (pd : List (List Char)) (st : S3State)
    (p : List Char) : S3State :=
  if !s3Exists root st p then st
  else if s3Isdir root st p then
    let st1 := s3DeleteDirectory root st p
    if p = chars "/" || p = [] then s3Init root pd st1
    else if stripSlashes p ∈ pd then s3CreateDirectory root st1 p
    else st1
  else s3DeleteFile root st p

/-- One delimiter page for prefix `pfx`: the `Contents` (keys with no `/`
past the prefix) and the `CommonPrefixes` (the prefix extended to the next
`/`, deduplicated), each in key order. -/
def s3DelimContents (st : S3State) (pfx : List Char) : List (List Char × Nat) :=
  (listUnder st pfx).filter (fun o => !(o.1.drop pfx.length).contains '/')

/-- The `CommonPrefixes` of a delimiter listing for prefix `pfx`. -/
def s3CommonPfxs (st : S3State) (pfx : List Char) : List (List Char) :=
  ((listUnder st pfx).filterMap (fun o =>
    let rest := o.1.drop pfx.length
    if rest.contains '/' then
      some (pfx ++ rest.takeWhile (· ≠ '/') ++ ['/'])
    else none)).dedup

/-- `S3Filesystem._directory_contents`: yields the delimiter page's files
(skipping the self marker, with paths cut after `root_path` plus one
character), then per common prefix the directory entry (when `dirs`) and,
when `recursive`, the recursive contents.  The recursion of the source
terminates because each recursive prefix is strictly longer; here it is
driven by a fuel argument that the wrapper instantiates generously. -/
def s3DirContentsAux (root : List Char) (st : S3State) :
    Nat → List Char → Bool → Bool → List FileInfo
  | 0, _, _, _ => []
  | fuel + 1, path, dirs, recursive =>
    let fp := full_path root path
    let files := (s3DelimContents st fp).filter (fun o => !(o.1 = fp : Bool))
    (files.map (fun o =>
      ⟨o.1.drop (root.length + 1), FileTypes.file, naturalsize o.2⟩)) ++
    ((s3CommonPfxs st fp).flatMap (fun pfx =>
      let dirPath := pfx.drop (root.length + 1)
      (if dirs then [⟨dirPath, FileTypes.directory, []⟩] else []) ++
      (if recursive then s3DirContentsAux root st fuel dirPath dirs recursive
       else [])))

/-- Fuel bound for the delimiter recursion: more than the total length of
all stored keys, which exceeds any chain of strictly-lengthening prefixes. -/
def s3Fuel (st : S3State) : Nat :=
  st.objs.foldr (fun o a => o.1.length + a) 0 + 1

/-- `S3Filesystem._directory_contents` with the fuel instantiated. -/
def s3DirContents (root : List Char) (st : S3State) (path : List Char)
    (dirs recursive : Bool) : List FileInfo :=
  s3DirContentsAux root st (s3Fuel st) path dirs recursive

/-- The normalization in `FileSystem.list_directory`:
`path if path.endswith("/") else path + "/"`. -/
def normalizeDir (path : List Char) : List Char :=
  if endsSlash path then path else path ++ ['/']

/-- `FileSystem.list_directory` on the flat backend: append the trailing
slash when missing, fail with `NotADirectoryError` unless the normalized path
is a directory, and return the delimiter listing otherwise. -/
def s3ListDirectory (root : List Char) (st : S3State) (path : List Char)
    (dirs recursive : Bool) : Except FsErr (List FileInfo) :=
  if !s3Isdir root st (normalizeDir path) then .error .notADirectory
  else .ok (s3DirContents root st (normalizeDir path) dirs recursive)

/-- `head_object`: the size of an exactly-matching key, or a client error. -/
def s3HeadObject (st : S3State) (k : List Char) : Except FsErr Nat :=
  match st.objs.find? (fun o => o.1 = k) with
  | some o => .ok o.2
  | none => .error .clientError

/-- `S3Filesystem.get_file_info`: `head_object` on the full path; the
returned record carries the logical path unchanged, kind `file`, humanized
size. -/
def s3GetFileInfo (root : List Char) (st : S3State) (p : List Char) :
    Except FsErr FileInfo :=
  (s3HeadObject st (full_path root p)).map (fun sz =>
    ⟨p, FileTypes.file, naturalsize sz⟩)

/-- `copy_object`: fails with a client error when the source key is absent,
otherwise stores the source's content under the destination key. -/
def s3CopyObject (st : S3State) (src dst : List Char) : Except FsErr S3State :=
  match st.objs.find? (fun o => o.1 = src) with
  | some o => .ok (putObject st dst o.2)
  | none => .error .clientError

/-- `S3Filesystem._rename_file`: copy then delete the original. -/
def s3RenameFile (root : List Char) (st : S3State) (p newP : List Char) :
    Except FsErr S3State :=
  (s3CopyObject st (full_path root p) (full_path root newP)).map
    (fun st1 => deleteObject st1 (full_path root p))

/-- `FileSystem.rename` resolved on the flat backend: `NotFound` when the
source does not exist; when the source is a directory, the inner
`list_directory` re-check, then `IsDirectory` when the directory is non-empty
or (stripped of slashes) predefined; otherwise copy-and-delete. -/
def s3Rename (root : List Char) (pd : List (List Char)) (st : S3State)
    (p newP : List Char) : Except FsErr S3State :=
  if !s3Exists root st p then .error .notFound
  else if s3Isdir root st p then
    if !s3Isdir root st (normalizeDir p) then .error .notADirectory
    else if !(s3DirContents root st (normalizeDir p) true false).isEmpty
    then .error .isADirectory
    else if stripSlashes p ∈ pd then .error .isADirectory
    else s3RenameFile root st p newP
  else s3RenameFile root st p newP

/-- The parts of a presigned POST (`generate_presigned_post`) that the spec
constrains: the key template, the `starts-with` condition on `$key`, and the
expiry in seconds. -/
structure PresignedPost where
  key : List Char
  condKeyStartsWith : List Char
  expiresIn : Nat
deriving DecidableEq, Repr

/-- `S3Filesystem.create_file_url`: the full path gets a trailing slash when
missing; the presigned POST uses `Key = path + "${filename}"`, the condition
`["starts-with", "$key", path]`, and `ExpiresIn = 60 * 10`. -/
def s3CreateFileUrl (root p : List Char) : PresignedPost :=
  let path := full_path root p
  let path := if path.getLast? ≠ some '/' then path ++ ['/'] else path
  ⟨path ++ chars "$\x7bfilename\x7d", path, 60 * 10⟩

/-- The parts of a presigned GET (`generate_presigned_url`) that the spec
constrains. -/
structure PresignedGet where
  key : List Char
  expiresIn : Nat
deriving DecidableEq, Repr

/-- `S3Filesystem.download_url`: `NotFound` unless some key extends the full
path, else a presigned GET for the full path with `ExpiresIn = 60 * 10`. -/
def s3DownloadUrl (root : List Char) (st : S3State) (p : List Char) :
    Except FsErr PresignedGet :=
  if st.objs.any (fun o => (full_path root p).isPrefixOf o.1) then
    .ok ⟨full_path root p, 60 * 10⟩
  else .error .notFound

/-! ### The hierarchical backend (`LocalFilesystem`)

The OS tree is a set of directories and a set of files, keyed by the
component list their path resolves to (`pathComps`), which is how the OS
identifies `a/b`, `a//b`, `a/./b` and `a/b/`.  `os.listdir` / `rglob` order
is unspecified by the OS; it is modelled as sorted.  OS failures
(`FileExistsError`, `NotADirectoryError` from `makedirs`, `OSError` from
`rename`/`stat`) are all embedded as `FsErr.osError`; renames assume the
destination path is free, the only case the repository exercises. -/

/-- The OS-tree state: directories and files keyed by resolved components. -/
structure LocalState where
  dirs : List (List (List Char))
  files : List (List (List Char) × Nat)
deriving DecidableEq, Repr

/-- `os.path.exists`: a trailing slash resolves only to a directory. -/
def osExists (st : LocalState) (p : List Char) : Bool :=
  if endsSlash p then decide (pathComps p ∈ st.dirs)
  else decide (pathComps p ∈ st.dirs) || st.files.any (fun f => f.1 = pathComps p)

/-- `os.path.isdir`. -/
def osIsdir (st : LocalState) (p : List Char) : Bool :=
  decide (pathComps p ∈ st.dirs)

/-- The nonempty component prefixes of a path: the directory chain
`os.makedirs` walks. -/
def dirChain (p : List Char) : List (List (List Char)) :=
  ((pathComps p).inits).filter (fun c => !c.isEmpty)

/-- `os.makedirs(p, exist_ok=True)`: creates every missing ancestor; fails
when a regular file occupies the path or one of its ancestors. -/
def osMakedirs (st : LocalState) (p : List Char) : Except FsErr LocalState :=
  if (dirChain p).any (fun pr => st.files.any (fun f => f.1 = pr)) then
    .error .osError
  else
    .ok ⟨((dirChain p).filter (fun c => !decide (c ∈ st.dirs))) ++ st.dirs, st.files⟩

/-- `os.remove`. -/
def osRemove (st : LocalState) (p : List Char) : LocalState :=
  ⟨st.dirs, st.files.filter (fun f => !(f.1 = pathComps p : Bool))⟩

/-- `shutil.rmtree`: removes the directory and every descendant. -/
def osRmtree (st : LocalState) (p : List Char) : LocalState :=
  let base := pathComps p
  ⟨st.dirs.filter (fun c => !base.isPrefixOf c),
   st.files.filter (fun f => !base.isPrefixOf f.1)⟩

/-- `os.rename` (POSIX `rename(2)`): moves a file, or a directory together
with its subtree.  Errors: source absent or a trailing-slash path that is
not a directory, or destination parent missing (`ENOENT`/`ENOTDIR` →
`OSError`); file source onto an existing directory (`EISDIR` →
`IsADirectoryError`); directory source onto an existing file (`ENOTDIR` →
`NotADirectoryError`), onto a non-empty directory (`ENOTEMPTY` → `OSError`),
or into its own subtree (`EINVAL` → `OSError`).  Renaming a path onto itself
is a successful no-op; a file silently replaces an existing destination
file, a directory replaces an existing *empty* destination directory. -/
def osRename (st : LocalState) (src dst : List Char) : Except FsErr LocalState :=
  if endsSlash src && !decide (pathComps src ∈ st.dirs) then .error .osError
  else if !(pathComps dst).dropLast.isEmpty
      && !decide ((pathComps dst).dropLast ∈ st.dirs) then .error .osError
  else if st.files.any (fun f => f.1 = pathComps src)
      && !decide (pathComps src ∈ st.dirs) then
    if pathComps dst ∈ st.dirs then .error .isADirectory
    else if pathComps src = pathComps dst then .ok st
    else
      .ok ⟨st.dirs,
           (st.files.filter (fun f => !(f.1 = pathComps dst : Bool))).map
             (fun f => if f.1 = pathComps src then (pathComps dst, f.2) else f)⟩
  else if pathComps src ∈ st.dirs then
    if pathComps src = pathComps dst then .ok st
    else if st.files.any (fun f => f.1 = pathComps dst) then
      .error .notADirectory
    else if decide (pathComps dst ∈ st.dirs)
        && (st.dirs.any (fun c => !(c = pathComps dst : Bool)
              && (pathComps dst).isPrefixOf c)
            || st.files.any (fun f => (pathComps dst).isPrefixOf f.1)) then
      .error .osError
    else if (pathComps src).isPrefixOf (pathComps dst) then .error .osError
    else
      .ok ⟨(st.dirs.filter (fun c => !(c = pathComps dst : Bool))).map
             (fun c => if (pathComps src).isPrefixOf c
               then pathComps dst ++ c.drop (pathComps src).length else c),
           st.files.map (fun f => if (pathComps src).isPrefixOf f.1
             then (pathComps dst ++ f.1.drop (pathComps src).length, f.2) else f)⟩
  else .error .osError

/-- `os.path.split(p)[0]` (also `os.path.dirname(p)`): the part before the
last `/`, with trailing slashes stripped unless it is all slashes; empty when
there is no `/`. -/
def osPathSplitHead (p : List Char) : List Char :=
  if p.contains '/' then
    let head := (p.reverse.dropWhile (· ≠ '/')).reverse
    let h2 := (head.reverse.dropWhile (· = '/')).reverse
    if h2.isEmpty then head else h2
  else []

/-- `LocalFilesystem.create_directory`. -/
def localCreateDirectory (root : List Char) (st : LocalState) (p : List Char) :
    Except FsErr LocalState :=
  osMakedirs st (full_path root p)

/-- `LocalFilesystem.exists`. -/
def localExists (root : List Char) (st : LocalState) (p : List Char) : Bool :=
  osExists st (full_path root p)

/-- `LocalFilesystem.isdir`: the literal `"/"`, or `os.path.isdir` of the
full path. -/
def localIsdir (root : List Char) (st : LocalState) (p : List Char) : Bool :=
  p = chars "/" || osIsdir st (full_path root p)

/-- `LocalFilesystem.create_file`: `makedirs` on the path's directory part,
then write (overwrite) the file; opening a directory path for writing is an
OS error. -/
def localCreateFile (root : List Char) (st : LocalState) (p : List Char)
    (sz : Nat) : Except FsErr LocalState :=
  match osMakedirs st (full_path root (osPathSplitHead p)) with
  | .error e => .error e
  | .ok st1 =>
    if endsSlash (full_path root p)
        || decide (pathComps (full_path root p) ∈ st1.dirs) then .error .osError
    else
      .ok ⟨st1.dirs,
           (pathComps (full_path root p), sz)
             :: st1.files.eraseP (fun f => f.1 = pathComps (full_path root p))⟩

/-- `LocalFilesystem.get_file_info` without the `os.stat` existence check:
directories render as `path + "/"` with empty size, files with their
humanized stored size. -/
def localFileInfo (root : List Char) (st : LocalState) (p : List Char) : FileInfo :=
  if localIsdir root st p then ⟨p ++ ['/'], FileTypes.directory, []⟩
  else
    ⟨p, FileTypes.file,
     naturalsize (((st.files.find?
       (fun f => f.1 = pathComps (full_path root p))).map (·.2)).getD 0)⟩

/-- `LocalFilesystem.get_file_info`: `os.stat` fails on an absent path. -/
def localGetFileInfo (root : List Char) (st : LocalState) (p : List Char) :
    Except FsErr FileInfo :=
  if !osExists st (full_path root p) then .error .osError
  else .ok (localFileInfo root st p)

/-- `os.listdir`: the names of the immediate children of `base` (modelled in
sorted order). -/
def localChildNames (st : LocalState) (base : List (List Char)) : List (List Char) :=
  sortKeys
    ((st.dirs.filterMap (fun c =>
        if c.length = base.length + 1 && base.isPrefixOf c then c.getLast? else none)) ++
     (st.files.filterMap (fun f =>
        if f.1.length = base.length + 1 && base.isPrefixOf f.1 then f.1.getLast? else none)))

/-- `Path(...).rglob("*")` made relative: every strict descendant of `base`,
as a path string relative to it (modelled in sorted order). -/
def localDescendants (st : LocalState) (base : List (List Char)) : List (List Char) :=
  sortKeys
    ((st.dirs.filterMap (fun c =>
        if base.isPrefixOf c && decide (base.length < c.length)
        then some (joinSlash (c.drop base.length)) else none)) ++
     (st.files.filterMap (fun f =>
        if base.isPrefixOf f.1 && decide (base.length < f.1.length)
        then some (joinSlash (f.1.drop base.length)) else none)))

/-- `LocalFilesystem._directory_contents`: `listdir` or relative `rglob`,
dropping directories when `dirs` is false, and rendering each entry through
`get_file_info` on `path + name` (with `path` taken as `""` when `"/"`). -/
def localDirContents (root : List Char) (st : LocalState) (path : List Char)
    (dirs recursive : Bool) : List FileInfo :=
  let fp := full_path root path
  let base := pathComps fp
  let names := if recursive then localDescendants st base else localChildNames st base
  let names :=
    if dirs then names
    else names.filter (fun f =>
      !osIsdir st (fp ++ (if endsSlash fp then [] else ['/']) ++ f))
  names.map (fun f =>
    localFileInfo root st ((if path = chars "/" then [] else path) ++ f))

/-- `FileSystem.list_directory` on the hierarchical backend. -/
def localListDirectory (root : List Char) (st : LocalState) (path : List Char)
    (dirs recursive : Bool) : Except FsErr (List FileInfo) :=
  if !localIsdir root st (normalizeDir path) then .error .notADirectory
  else .ok (localDirContents root st (normalizeDir path) dirs recursive)

/-- `FileSystem.init` on the hierarchical backend. -/
def localInit (root : List Char) (pd : List (List Char)) (st : LocalState) :
    Except FsErr LocalState :=
  (pd ++ [[]]).foldlM (fun s d => localCreateDirectory root s (d ++ ['/'])) st

/-- `LocalFilesystem.delete` (= `FileSystem.delete` with
`reinit_if_root=True`; the subclass override only repeats the existence
check). -/
def localDelete (root : List Char) (pd : List (List Char)) (st : LocalState)
    (p : List Char) : Except FsErr LocalState :=
  if !localExists root st p then .ok st
  else if localIsdir root st p then
    let st1 := osRmtree st (full_path root p)
    if p = chars "/" || p = [] then localInit root pd st1
    else if stripSlashes p ∈ pd then localCreateDirectory root st1 p
    else .ok st1
  else .ok (osRemove st (full_path root p))

/-- `LocalFilesystem._rename_file`: `create_directory(os.path.dirname(new))`
then `os.rename`. -/
def localRenameFile (root : List Char) (st : LocalState) (p newP : List Char) :
    Except FsErr LocalState :=
  match localCreateDirectory root st (osPathSplitHead newP) with
  | .error e => .error e
  | .ok st1 => osRename st1 (full_path root p) (full_path root newP)

/-- `FileSystem.rename` resolved on the hierarchical backend. -/
def localRename (root : List Char) (pd : List (List Char)) (st : LocalState)
    (p newP : List Char) : Except FsErr LocalState :=
  if !localExists root st p then .error .notFound
  else if localIsdir root st p then
    if !localIsdir root st (normalizeDir p) then .error .notADirectory
    else if !(localDirContents root st (normalizeDir p) true false).isEmpty then
      .error .isADirectory
    else if stripSlashes p ∈ pd then .error .isADirectory
    else localRenameFile root st p newP
  else localRenameFile root st p newP

/-! ### The routing layer (`api/endpoints/files.py`)

Each handler wraps one storage operation in `try/except` clauses that
translate the caught error kinds into `HTTPException` status codes; anything
not caught propagates out of the handler unhandled. -/

/-- An example per-user root. -/
def exRoot : List Char := chars "root"

/-- A freshly initialized flat-backend state. -/
def s3Ex0 : S3State := s3Init exRoot predefDirs ⟨[]⟩

/-- `s3Ex0` plus the two files of the listing scenario. -/
def s3Ex1 : S3State :=
  s3CreateFile exRoot
    (s3CreateFile exRoot s3Ex0 (chars "data/test/a.txt") 3)
    (chars "data/test/b.txt") 5

/-- A freshly initialized hierarchical-backend state. -/
def localEx0 : LocalState :=
  (localInit exRoot predefDirs ⟨[], []⟩).toOption.getD ⟨[], []⟩

/-- `localEx0` plus the two files of the listing scenario. -/
def localEx1 : LocalState :=
  (((localCreateFile exRoot localEx0 (chars "data/test/a.txt") 3).bind
    (fun s => localCreateFile exRoot s (chars "data/test/b.txt") 5))).toOption.getD
    ⟨[], []⟩

/-! ### Path lemmas -/

theorem splitSlash_ne_nil (s : List Char) : splitSlash s ≠ [] := by
  cases s with
  | nil => simp [splitSlash]
  | cons c cs =>
    unfold splitSlash
    cases h : splitSlash cs with
    | nil => simp
    | cons g gs => by_cases hc : c = '/' <;> simp [hc]

theorem splitSlash_append_slash (a b : List Char) :
    splitSlash (a ++ '/' :: b) = splitSlash a ++ splitSlash b := by
  induction a with
  | nil =>
    cases h : splitSlash b with
    | nil => exact absurd h (splitSlash_ne_nil b)
    | cons g gs => simp [splitSlash, h]
  | cons c cs ih =>
    show splitSlash (c :: (cs ++ '/' :: b)) = splitSlash (c :: cs) ++ splitSlash b
    cases h : splitSlash cs with
    | nil => exact absurd h (splitSlash_ne_nil cs)
    | cons g gs => by_cases hc : c = '/' <;> simp [splitSlash, ih, h, hc]

theorem pathComps_append_slash (a b : List Char) :
    pathComps (a ++ '/' :: b) = pathComps a ++ pathComps b := by
  unfold pathComps
  rw [splitSlash_append_slash, List.filter_append]

theorem pathComps_trailing_slash (a : List Char) :
    pathComps (a ++ ['/']) = pathComps a := by
  have h := pathComps_append_slash a []
  simpa [pathComps, splitSlash] using h

/-! ### Claim theorems -/

/-- C10: on the flat backend, `exists(p)` is true exactly when the full path
of `p` is a string prefix of some stored object key; concretely, after
creating `data/xy.txt` in a fresh state, `exists("data/x")` is true although
no object is stored at `data/x` itself. -/
theorem c10_exists_is_prefix_search :
    (∀ root (st : S3State) p,
       s3Exists root st p = true
         ↔ ∃ o, o ∈ st.objs ∧ (full_path root p).isPrefixOf o.1 = true)
  ∧ s3Exists exRoot (s3CreateFile exRoot s3Ex0 (chars "data/xy.txt") 20)
      (chars "data/x") = true
  ∧ (s3CreateFile exRoot s3Ex0 (chars "data/xy.txt") 20).objs.all
      (fun o => !(o.1 = full_path exRoot (chars "data/x") : Bool)) = true := by
  refine ⟨fun root st p => ?_, by decide, by decide⟩
  simp [s3Exists, List.any_eq_true]

/-- C9: every presigned request of the flat backend expires after exactly
600 seconds; the presigned POST is scoped by a `starts-with` condition to the
target directory prefix and its key is that prefix followed by the
`${filename}` substitution token; the presigned GET likewise carries a 600
second expiry. -/
theorem c9_presigned_requests (root p : List Char) (st : S3State) :
    (s3CreateFileUrl root p).expiresIn = 600
  ∧ (s3CreateFileUrl root p).key
      = (s3CreateFileUrl root p).condKeyStartsWith ++ chars "$\x7bfilename\x7d"
  ∧ (s3CreateFileUrl root p).condKeyStartsWith
      = (if (full_path root p).getLast? ≠ some '/'
         then full_path root p ++ ['/'] else full_path root p)
  ∧ (∀ r, s3DownloadUrl root st p = .ok r → r.expiresIn = 600) := by
  refine ⟨rfl, rfl, rfl, fun r h => ?_⟩
  unfold s3DownloadUrl at h
  split at h
  · cases h
    rfl
  · cases h

/-- C9 witness: the general theorem applied to a concrete download request. -/
theorem c9_presigned_requests_witness :
    s3DownloadUrl exRoot s3Ex1 (chars "data/test/a.txt")
      = .ok ⟨chars "root/data/test/a.txt", 600⟩
  ∧ (⟨chars "root/data/test/a.txt", 600⟩ : PresignedGet).expiresIn = 600 := by
  refine ⟨by decide, ?_⟩
  exact (c9_presigned_requests exRoot (chars "data/test/a.txt") s3Ex1).2.2.2
    ⟨chars "root/data/test/a.txt", 600⟩ (by decide)

/-- C4: on both backends, `list_directory(p, ...)` fails with
`NotADirectory` exactly when `p`, normalized by appending the missing
trailing slash, is not a directory; when it is one, the call returns the
directory contents without raising. -/
theorem c4_listDirectory_notADirectory_iff (root : List Char) (st : S3State)
    (lst : LocalState) (p : List Char) (dirs recursive : Bool) :
    (s3ListDirectory root st p dirs recursive = .error .notADirectory
       ↔ s3Isdir root st (normalizeDir p) = false)
  ∧ (localListDirectory root lst p dirs recursive = .error .notADirectory
       ↔ localIsdir root lst (normalizeDir p) = false)
  ∧ (s3Isdir root st (normalizeDir p) = true →
       s3ListDirectory root st p dirs recursive
         = .ok (s3DirContents root st (normalizeDir p) dirs recursive))
  ∧ (localIsdir root lst (normalizeDir p) = true →
       localListDirectory root lst p dirs recursive
         = .ok (localDirContents root lst (normalizeDir p) dirs recursive)) := by
  refine ⟨?_, ?_, fun h => ?_, fun h => ?_⟩
  · unfold s3ListDirectory
    cases h : s3Isdir root st (normalizeDir p) <;> simp [h]
  · unfold localListDirectory
    cases h : localIsdir root lst (normalizeDir p) <;> simp [h]
  · unfold s3ListDirectory
    simp [h]
  · unfold localListDirectory
    simp [h]

/-- C4 witness: the general theorem applied on both backends, to a real
directory and to a file path. -/
theorem c4_listDirectory_notADirectory_iff_witness :
    s3ListDirectory exRoot s3Ex1 (chars "data") true false
      = .ok (s3DirContents exRoot s3Ex1 (chars "data/") true false)
  ∧ localListDirectory exRoot localEx1 (chars "data") true false
      = .ok (localDirContents exRoot localEx1 (chars "data/") true false)
  ∧ s3ListDirectory exRoot s3Ex1 (chars "data/test/a.txt") true false
      = .error .notADirectory
  ∧ localListDirectory exRoot localEx1 (chars "data/test/a.txt") true false
      = .error .notADirectory := by
  refine ⟨?_, ?_, ?_, ?_⟩
  · exact (c4_listDirectory_notADirectory_iff exRoot s3Ex1 localEx1
      (chars "data") true false).2.2.1 (by decide)
  · exact (c4_listDirectory_notADirectory_iff exRoot s3Ex1 localEx1
      (chars "data") true false).2.2.2 (by decide)
  · exact (c4_listDirectory_notADirectory_iff exRoot s3Ex1 localEx1
      (chars "data/test/a.txt") true false).1.mpr (by decide)
  · exact (c4_listDirectory_notADirectory_iff exRoot s3Ex1 localEx1
      (chars "data/test/a.txt") true false).2.1.mpr (by decide)

/-! ### Helper lemmas on the backend primitives -/

theorem osMakedirs_spec (st : LocalState) (p : List Char)
    (h : (dirChain p).any (fun pr => st.files.any (fun f => f.1 = pr)) = false) :
    ∃ st1, osMakedirs st p = .ok st1 ∧ st1.files = st.files
      ∧ ∀ c, c ∈ st1.dirs ↔ c ∈ dirChain p ∨ c ∈ st.dirs := by
  refine ⟨⟨((dirChain p).filter (fun c => !decide (c ∈ st.dirs))) ++ st.dirs,
           st.files⟩, ?_, rfl, fun c => ?_⟩
  · unfold osMakedirs
    rw [h]
    simp
  · show c ∈ _ ++ st.dirs ↔ _
    by_cases hd : c ∈ st.dirs <;> simp [List.mem_append, List.mem_filter, hd]

theorem osMakedirs_idem (st : LocalState) (p : List Char) :
    (osMakedirs st p).bind (fun s => osMakedirs s p) = osMakedirs st p := by
  cases hb : (dirChain p).any (fun pr => st.files.any (fun f => f.1 = pr)) with
  | true =>
    unfold osMakedirs
    rw [hb]
    rfl
  | false =>
    obtain ⟨st1, h1, hf, hd⟩ := osMakedirs_spec st p hb
    rw [h1]
    show osMakedirs st1 p = .ok st1
    have hb1 : (dirChain p).any (fun pr => st1.files.any (fun f => f.1 = pr))
        = false := by rw [hf]; exact hb
    have hnil : (dirChain p).filter (fun c => !decide (c ∈ st1.dirs)) = [] := by
      rw [List.filter_eq_nil_iff]
      intro a ha
      have hmem : a ∈ st1.dirs := (hd a).2 (Or.inl ha)
      simp [hmem]
    unfold osMakedirs
    rw [hb1, hnil]
    simp only [Bool.false_eq_true, if_false, List.nil_append]

theorem localExists_of_mem_dirs (root : List Char) (st : LocalState) (p : List Char)
    (h : pathComps (full_path root p) ∈ st.dirs) : localExists root st p = true := by
  unfold localExists osExists
  by_cases he : endsSlash (full_path root p) <;> simp [he, h]

/-- C5 (amended): `createDirectory` is idempotent on both backends -- the
second call returns the identical result and state; on the flat backend it
never errors and always leaves `exists(p)` true; on the hierarchical backend
the same holds provided no regular file occupies the path or one of its
ancestors (and the full path resolves to at least one component), while a
blocking file makes both calls fail identically. -/
theorem c5_createDirectory_idempotent (root : List Char) (st : S3State)
    (lst : LocalState) (p : List Char) :
    s3CreateDirectory root (s3CreateDirectory root st p) p
      = s3CreateDirectory root st p
  ∧ s3Exists root (s3CreateDirectory root st p) p = true
  ∧ (localCreateDirectory root lst p).bind (fun s => localCreateDirectory root s p)
      = localCreateDirectory root lst p
  ∧ ((dirChain (full_path root p)).any
        (fun pr => lst.files.any (fun f => f.1 = pr)) = false →
     pathComps (full_path root p) ≠ [] →
     ∃ st1, localCreateDirectory root lst p = .ok st1
        ∧ localExists root st1 p = true) := by
  refine ⟨?_, ?_, osMakedirs_idem lst (full_path root p), fun hb hne => ?_⟩
  · simp [s3CreateDirectory, putObject]
  · simp [s3Exists, s3CreateDirectory, putObject, List.any_cons,
      List.isPrefixOf_iff_prefix]
  · obtain ⟨st1, h1, _, hd⟩ := osMakedirs_spec lst (full_path root p) hb
    refine ⟨st1, h1, localExists_of_mem_dirs root st1 p ?_⟩
    refine (hd _).2 (Or.inl ?_)
    unfold dirChain
    rw [List.mem_filter]
    exact ⟨(List.mem_inits _ _).2 (List.prefix_refl _), by simpa using hne⟩

/-- C5 counterexample: on the hierarchical backend, `createDirectory("a/")`
raises an OS error (`FileExistsError`) when a regular file already occupies
`root/a`, so "calling it twice in succession raises no error" fails for this
path. -/
theorem c5_createDirectory_counterexample :
    localCreateDirectory exRoot
      ⟨[pathComps exRoot], [(pathComps (chars "root/a"), 1)]⟩ (chars "a/")
      = .error .osError := by decide

/-- C5 witness: the general theorem applied to a fresh hierarchical state
and a fresh flat state. -/
theorem c5_createDirectory_idempotent_witness :
    (∃ st1, localCreateDirectory exRoot localEx0 (chars "data/sub/") = .ok st1
        ∧ localExists exRoot st1 (chars "data/sub/") = true)
  ∧ s3Exists exRoot (s3CreateDirectory exRoot s3Ex0 (chars "data/sub/"))
      (chars "data/sub/") = true := by
  exact ⟨(c5_createDirectory_idempotent exRoot s3Ex0 localEx0
            (chars "data/sub/")).2.2.2 (by decide) (by decide),
         (c5_createDirectory_idempotent exRoot s3Ex0 localEx0
            (chars "data/sub/")).2.1⟩

/-- C6: on both backends, after `createFile(p, bytes)`, `getFileInfo(p)`
reports the path `p` unchanged, kind `file`, and the humanized length of the
written bytes; a 20-byte file renders as `"20 Bytes"`.  (On the hierarchical
backend the clause is conditional on the write having succeeded.) -/
theorem c6_createFile_getFileInfo (root : List Char) (st : S3State)
    (lst : LocalState) (p : List Char) (n : Nat) :
    s3GetFileInfo root (s3CreateFile root st p n) p
      = .ok ⟨p, FileTypes.file, naturalsize n⟩
  ∧ (∀ lst1, localCreateFile root lst p n = .ok lst1 →
       localGetFileInfo root lst1 p = .ok ⟨p, FileTypes.file, naturalsize n⟩)
  ∧ naturalsize 20 = chars "20 Bytes" := by
  refine ⟨?_, fun lst1 h => ?_, by decide⟩
  · simp [s3GetFileInfo, s3CreateFile, putObject, s3HeadObject, List.find?_cons,
      Except.map]
  · cases hm : osMakedirs lst (full_path root (osPathSplitHead p)) with
    | error e =>
      simp only [localCreateFile, hm] at h
      exact Except.noConfusion h
    | ok st1 =>
      simp only [localCreateFile, hm] at h
      split at h
      · cases h
      · rename_i hcond
        cases h
        simp only [Bool.or_eq_true, not_or, Bool.not_eq_true,
          decide_eq_true_eq] at hcond
        obtain ⟨hc1, hc2⟩ := hcond
        have hp : p ≠ chars "/" := by
          intro hp
          rw [hp] at hc1
          have he : full_path root (chars "/") = root ++ ['/'] := rfl
          rw [he] at hc1
          simp [endsSlash, List.getLast?_concat] at hc1
        unfold localGetFileInfo osExists localFileInfo localIsdir osIsdir
        simp [hc1, hc2, hp, List.find?_cons]

/-- C6 witness: the general theorem at the spec's concrete 20-byte file. -/
theorem c6_createFile_getFileInfo_witness :
    s3GetFileInfo exRoot (s3CreateFile exRoot s3Ex0 (chars "data/test/f1.txt") 20)
      (chars "data/test/f1.txt")
      = .ok ⟨chars "data/test/f1.txt", FileTypes.file, chars "20 Bytes"⟩
  ∧ (∃ lst1, localCreateFile exRoot localEx0 (chars "data/test/f1.txt") 20 = .ok lst1
       ∧ localGetFileInfo exRoot lst1 (chars "data/test/f1.txt")
           = .ok ⟨chars "data/test/f1.txt", FileTypes.file, chars "20 Bytes"⟩) := by
  have h := c6_createFile_getFileInfo exRoot s3Ex0 localEx0 (chars "data/test/f1.txt") 20
  have hn : naturalsize 20 = chars "20 Bytes" := h.2.2
  refine ⟨by rw [h.1, hn], ?_⟩
  refine ⟨_, rfl, ?_⟩
  rw [h.2.1 _ rfl, hn]


/-- The flat-backend state of the listing scenario: a fresh initialized
state plus `data/test/a.txt` and `data/test/b.txt`. -/
def s3ListScenario (na nb : Nat) : S3State :=
  s3CreateFile exRoot
    (s3CreateFile exRoot s3Ex0 (chars "data/test/a.txt") na)
    (chars "data/test/b.txt") nb

/-- The object layout the flat-backend scenario evaluates to (used to keep
the listing computation on a literal state inside the proof). -/
def s3ListScenarioObjs (na nb : Nat) : S3State :=
  ⟨[(chars "root/data/test/b.txt", nb), (chars "root/data/test/a.txt", na),
    (chars "root/", 0), (chars "root/artifact/", 0), (chars "root/log/", 0),
    (chars "root/output/", 0), (chars "root/data/", 0), (chars "root/config/", 0)]⟩

/-- The hierarchical-backend setup of the listing scenario. -/
def localListScenario (na nb : Nat) : Except FsErr LocalState :=
  (localCreateFile exRoot localEx0 (chars "data/test/a.txt") na).bind
    (fun s => localCreateFile exRoot s (chars "data/test/b.txt") nb)

/-- The state the hierarchical setup produces. -/
def localListState (na nb : Nat) : LocalState :=
  (localListScenario na nb).toOption.getD ⟨[], []⟩

/-- C7: on both backends, with exactly the files `data/test/a.txt` and
`data/test/b.txt` under `data/`, the recursive listing of `"data/"` with
directories included yields exactly `data/test/` (a directory), then the two
files, and with directories excluded exactly the two files; all paths are
relative to the instance root, not to the queried directory. -/
theorem c7_recursive_listing_shape (na nb : Nat) :
    s3ListDirectory exRoot (s3ListScenario na nb) (chars "data/") true true
      = .ok [⟨chars "data/test/", FileTypes.directory, []⟩,
             ⟨chars "data/test/a.txt", FileTypes.file, naturalsize na⟩,
             ⟨chars "data/test/b.txt", FileTypes.file, naturalsize nb⟩]
  ∧ s3ListDirectory exRoot (s3ListScenario na nb) (chars "data/") false true
      = .ok [⟨chars "data/test/a.txt", FileTypes.file, naturalsize na⟩,
             ⟨chars "data/test/b.txt", FileTypes.file, naturalsize nb⟩]
  ∧ localListScenario na nb = .ok (localListState na nb)
  ∧ localListDirectory exRoot (localListState na nb) (chars "data/") true true
      = .ok [⟨chars "data/test/", FileTypes.directory, []⟩,
             ⟨chars "data/test/a.txt", FileTypes.file, naturalsize na⟩,
             ⟨chars "data/test/b.txt", FileTypes.file, naturalsize nb⟩]
  ∧ localListDirectory exRoot (localListState na nb) (chars "data/") false true
      = .ok [⟨chars "data/test/a.txt", FileTypes.file, naturalsize na⟩,
             ⟨chars "data/test/b.txt", FileTypes.file, naturalsize nb⟩] := by
  have hstate : s3ListScenario na nb = s3ListScenarioObjs na nb := rfl
  have e1 : full_path exRoot (chars "data/") = chars "root/data/" := rfl
  have e2 : full_path exRoot (chars "data/test/") = chars "root/data/test/" := rfl
  have d1 : (chars "root/data/test/").drop (exRoot.length + 1)
      = chars "data/test/" := rfl
  have hp1 : s3CommonPfxs (s3ListScenarioObjs na nb) (chars "root/data/")
      = [chars "root/data/test/"] := rfl
  have hp2 : s3CommonPfxs (s3ListScenarioObjs na nb) (chars "root/data/test/")
      = [] := rfl
  have hfiles1 : ((s3DelimContents (s3ListScenarioObjs na nb)
        (chars "root/data/")).filter
        (fun o => !(o.1 = chars "root/data/" : Bool))).map
        (fun o => FileInfo.mk (o.1.drop (exRoot.length + 1)) FileTypes.file
          (naturalsize o.2))
      = ([] : List FileInfo) := rfl
  have hfiles2 : ((s3DelimContents (s3ListScenarioObjs na nb)
        (chars "root/data/test/")).filter
        (fun o => !(o.1 = chars "root/data/test/" : Bool))).map
        (fun o => FileInfo.mk (o.1.drop (exRoot.length + 1)) FileTypes.file
          (naturalsize o.2))
      = [⟨chars "data/test/a.txt", FileTypes.file, naturalsize na⟩,
         ⟨chars "data/test/b.txt", FileTypes.file, naturalsize nb⟩] := rfl
  have hwrap : ∀ (d r : Bool),
      s3ListDirectory exRoot (s3ListScenarioObjs na nb) (chars "data/") d r
        = .ok (s3DirContentsAux exRoot (s3ListScenarioObjs na nb) 103
            (chars "data/") d r) := fun d r => rfl
  obtain ⟨f, hf⟩ : ∃ f, (103 : Nat) = f + 1 + 1 := ⟨101, rfl⟩
  refine ⟨?_, ?_, rfl, rfl, rfl⟩
  · rw [hstate, hwrap true true, hf]
    simp only [s3DirContentsAux, e1, e2, d1, hp1, hp2, hfiles1, hfiles2,
      List.flatMap_cons, List.flatMap_nil, List.append_nil, List.nil_append,
      List.singleton_append, List.cons_append, if_true, ite_true]
  · rw [hstate, hwrap false true, hf]
    simp only [s3DirContentsAux, e1, e2, d1, hp1, hp2, hfiles1, hfiles2,
      List.flatMap_cons, List.flatMap_nil, List.append_nil, List.nil_append,
      List.singleton_append, List.cons_append, if_true, if_false, ite_true,
      ite_false]
    simp

/-! ### Further helper lemmas -/

theorem mem_insertObjLe {o x : List Char × Nat} {l : List (List Char × Nat)} :
    o ∈ insertObjLe x l ↔ o = x ∨ o ∈ l := by
  induction l with
  | nil => simp [insertObjLe]
  | cons y ys ih =>
    unfold insertObjLe
    by_cases h : lexLe x.1 y.1 = true
    · simp [h]
    · simp [h, ih]
      tauto

theorem mem_sortObjs {o : List Char × Nat} {l : List (List Char × Nat)} :
    o ∈ sortObjs l ↔ o ∈ l := by
  induction l with
  | nil => simp [sortObjs]
  | cons y ys ih => simp [sortObjs, mem_insertObjLe, ih]

theorem mem_listUnder {o : List Char × Nat} {st : S3State} {pfx : List Char}
    (h : o ∈ listUnder st pfx) : o ∈ st.objs ∧ pfx.isPrefixOf o.1 = true := by
  have h1 := mem_sortObjs.1 h
  exact ⟨(List.mem_filter.1 h1).1, (List.mem_filter.1 h1).2⟩

/-- When every stored key under a directory's full path is the marker
itself, the delimiter listing of that directory is empty (for any flags). -/
theorem s3DirContents_eq_nil (root : List Char) (st : S3State) (path : List Char)
    (hall : ∀ o ∈ st.objs, (full_path root path).isPrefixOf o.1 = true →
       o.1 = full_path root path) :
    ∀ d r, s3DirContents root st path d r = [] := by
  intro d r
  have hmem : ∀ o ∈ listUnder st (full_path root path),
      o.1 = full_path root path := by
    intro o ho
    obtain ⟨h1, h2⟩ := mem_listUnder ho
    exact hall o h1 h2
  have hfil : (s3DelimContents st (full_path root path)).filter
      (fun o => !(o.1 = full_path root path : Bool)) = [] := by
    rw [List.filter_eq_nil_iff]
    intro a ha
    have ha1 : a ∈ listUnder st (full_path root path) :=
      List.mem_of_mem_filter ha
    simp [hmem a ha1]
  have hpfx : s3CommonPfxs st (full_path root path) = [] := by
    unfold s3CommonPfxs
    have hfm : (listUnder st (full_path root path)).filterMap (fun o =>
        if ((o.1.drop (full_path root path).length).contains '/') = true then
          some ((full_path root path)
            ++ (o.1.drop (full_path root path).length).takeWhile (· ≠ '/')
            ++ ['/'])
        else none) = [] := by
      rw [List.filterMap_eq_nil_iff]
      intro a ha
      rw [hmem a ha, List.drop_length]
      rfl
    rw [hfm]
    rfl
  obtain ⟨f, hf⟩ : ∃ f, s3Fuel st = f + 1 := ⟨_, rfl⟩
  unfold s3DirContents
  rw [hf]
  show ((s3DelimContents st (full_path root path)).filter
      (fun o => !(o.1 = full_path root path : Bool))).map _
    ++ (s3CommonPfxs st (full_path root path)).flatMap _ = []
  rw [hfil, hpfx]
  rfl

/-- On the flat backend a directory path always ends in `/` (also the
literal `"/"`). -/
theorem s3Isdir_endsSlash {root : List Char} {st : S3State} {p : List Char}
    (h : s3Isdir root st p = true) : endsSlash p = true := by
  unfold s3Isdir at h
  rcases Bool.or_eq_true_iff.1 h with h1 | h1
  · have : p = chars "/" := by simpa using h1
    subst this
    rfl
  · exact ((Bool.and_eq_true _ _).mp h1).2

/-- `s3Isdir` implies `normalizeDir` is the identity there. -/
theorem s3Isdir_normalizeDir {root : List Char} {st : S3State} {p : List Char}
    (h : s3Isdir root st p = true) : normalizeDir p = p := by
  unfold normalizeDir
  rw [s3Isdir_endsSlash h]
  simp

/-- C3 counterexample: on a freshly initialized flat backend, the root
spelled `""` is *not* reported as a directory (`isdir` requires the literal
`"/"` or a trailing slash), contradicting "isDirectory returns true for both
spellings of the root". -/
theorem c3_root_counterexample :
    s3Isdir exRoot s3Ex0 (chars "") = false
  ∧ s3Exists exRoot s3Ex0 (chars "") = true := by
  exact ⟨by decide, by decide⟩

/-- C3 (amended): `isDirectory("/")` is true on both backends in every
state.  On the hierarchical backend `isDirectory("")` is likewise true, and
both spellings exist, whenever the root directory is present on disk; on the
flat backend `isDirectory("")` is false in *every* state, while both
spellings exist in any state holding at least one object under the root
marker prefix (as after initialization). -/
theorem c3_root_exists_isdir (root : List Char) (st : S3State) (lst : LocalState) :
    s3Isdir root st (chars "/") = true
  ∧ s3Isdir root st (chars "") = false
  ∧ ((∃ o, o ∈ st.objs ∧ (root ++ ['/']).isPrefixOf o.1 = true) →
       s3Exists root st (chars "/") = true ∧ s3Exists root st (chars "") = true)
  ∧ (pathComps root ∈ lst.dirs →
       localIsdir root lst (chars "/") = true
       ∧ localIsdir root lst (chars "") = true
       ∧ localExists root lst (chars "/") = true
       ∧ localExists root lst (chars "") = true) := by
  refine ⟨by simp [s3Isdir], ?_, fun hm => ⟨?_, ?_⟩, fun hr => ⟨?_, ?_, ?_, ?_⟩⟩
  · unfold s3Isdir
    have h1 : decide (chars "" = chars "/") = false := by decide
    have h2 : endsSlash (chars "") = false := by decide
    rw [h1, h2]
    simp
  · obtain ⟨o, ho, hpfx⟩ := hm
    have he : full_path root (chars "/") = root ++ ['/'] := rfl
    unfold s3Exists
    rw [he, List.any_eq_true]
    exact ⟨o, ho, hpfx⟩
  · obtain ⟨o, ho, hpfx⟩ := hm
    have he : full_path root (chars "") = root := rfl
    unfold s3Exists
    rw [he, List.any_eq_true]
    refine ⟨o, ho, ?_⟩
    rw [List.isPrefixOf_iff_prefix] at hpfx ⊢
    exact (List.prefix_append root ['/']).trans hpfx
  · simp [localIsdir]
  · unfold localIsdir osIsdir
    have he : full_path root (chars "") = root := rfl
    rw [he]
    simp [hr]
  · unfold localExists osExists
    have he : full_path root (chars "/") = root ++ ['/'] := rfl
    rw [he]
    have hend : endsSlash (root ++ ['/']) = true := by
      simp [endsSlash, List.getLast?_concat]
    rw [hend]
    simp [pathComps_trailing_slash, hr]
  · unfold localExists osExists
    have he : full_path root (chars "") = root := rfl
    rw [he]
    by_cases hend : endsSlash root = true <;> simp [hend, hr]

/-- C3 witness: the amended theorem applied to freshly initialized states of
both backends. -/
theorem c3_root_exists_isdir_witness :
    (s3Exists exRoot s3Ex0 (chars "/") = true
      ∧ s3Exists exRoot s3Ex0 (chars "") = true)
  ∧ (localIsdir exRoot localEx0 (chars "/") = true
      ∧ localIsdir exRoot localEx0 (chars "") = true
      ∧ localExists exRoot localEx0 (chars "/") = true
      ∧ localExists exRoot localEx0 (chars "") = true) := by
  refine ⟨(c3_root_exists_isdir exRoot s3Ex0 localEx0).2.2.1 ⟨(exRoot ++ ['/'], 0),
      by decide, by decide⟩,
    (c3_root_exists_isdir exRoot s3Ex0 localEx0).2.2.2 (by decide)⟩

theorem startsSlash_cons_append (c : Char) (l l' : List Char) :
    startsSlash ((c :: l) ++ l') = startsSlash (c :: l) := rfl

/-- Appending the missing trailing slash commutes with `full_path` (for a
path that is neither empty nor the root literal and has no trailing slash
yet). -/
theorem full_path_snoc_slash (root p : List Char) (h0 : p ≠ [])
    (h1 : p ≠ chars "/") (h2 : endsSlash p = false) :
    full_path root (p ++ ['/']) = full_path root p ++ ['/'] := by
  obtain ⟨c, p₂, rfl⟩ : ∃ c p₂, p = c :: p₂ := by
    cases p with
    | nil => exact absurd rfl h0
    | cons c p₂ => exact ⟨c, p₂, rfl⟩
  have hse : endsSlash ((c :: p₂) ++ ['/']) = true := by
    unfold endsSlash
    rw [List.getLast?_concat]
    simp
  have hq : (if startsSlash ((c :: p₂) ++ ['/']) then ((c :: p₂) ++ ['/']).tail
        else (c :: p₂) ++ ['/'])
      = (if startsSlash (c :: p₂) then (c :: p₂).tail else (c :: p₂)) ++ ['/'] := by
    rw [startsSlash_cons_append]
    by_cases hsp : startsSlash (c :: p₂) = true <;> simp [hsp]
  have hqne : (if startsSlash (c :: p₂) then (c :: p₂).tail else (c :: p₂)) ≠ [] := by
    by_cases hsp : startsSlash (c :: p₂) = true
    · rw [if_pos hsp]
      intro htail
      apply h1
      cases p₂ with
      | nil =>
        have : c = '/' := by simpa [startsSlash] using hsp
        rw [this]
        rfl
      | cons d p₃ => exact absurd htail (by simp)
    · rw [if_neg hsp]
      simp
  unfold full_path
  rw [hse, h2, hq]
  simp only [if_true, Bool.false_eq_true, if_false]
  congr 1
  obtain ⟨d, q₂, hd⟩ : ∃ d q₂,
      (if startsSlash (c :: p₂) then (c :: p₂).tail else (c :: p₂)) = d :: q₂ := by
    cases hqq : (if startsSlash (c :: p₂) then (c :: p₂).tail else (c :: p₂)) with
    | nil => exact absurd hqq hqne
    | cons d q₂ => exact ⟨d, q₂, rfl⟩
  rw [hd]
  rw [startsSlash_cons_append, pathComps_trailing_slash]

/-- On the hierarchical backend, `isdir` carries over to the normalized
(trailing-slash) spelling of the path. -/
theorem localIsdir_normalizeDir {root : List Char} {lst : LocalState}
    {p : List Char} (h : localIsdir root lst p = true) :
    localIsdir root lst (normalizeDir p) = true := by
  by_cases hp : p = chars "/"
  · subst hp
    exact h
  by_cases hp0 : p = []
  · subst hp0
    show localIsdir root lst (chars "/") = true
    simp [localIsdir]
  cases hsl : endsSlash p with
  | true =>
    have : normalizeDir p = p := by unfold normalizeDir; rw [hsl]; simp
    rw [this]
    exact h
  | false =>
    have hn : normalizeDir p = p ++ ['/'] := by unfold normalizeDir; rw [hsl]; simp
    rw [hn]
    unfold localIsdir at h ⊢
    rcases Bool.or_eq_true_iff.1 h with h1 | h1
    · exact absurd (by simpa using h1) hp
    · refine Bool.or_eq_true_iff.2 (Or.inr ?_)
      unfold osIsdir at h1 ⊢
      rw [full_path_snoc_slash root p hp0 hp hsl, pathComps_trailing_slash]
      exact h1

theorem s3Exists_of_mem {root : List Char} {st : S3State} {p : List Char}
    {o : List Char × Nat} (ho : o ∈ st.objs)
    (hpfx : (full_path root p).isPrefixOf o.1 = true) :
    s3Exists root st p = true := by
  unfold s3Exists
  rw [List.any_eq_true]
  exact ⟨o, ho, hpfx⟩

/-- C2 counterexample: on the flat backend the predefined-directory check is
skipped when the trailing slash is missing: in a fresh state, `config`
exists (as a prefix) and its stripped name is predefined, yet
`rename("config", "x")` raises a backend client error from the object copy,
not `IsDirectory`. -/
theorem c2_rename_counterexample :
    s3Exists exRoot s3Ex0 (chars "config") = true
  ∧ stripSlashes (chars "config") ∈ predefDirs
  ∧ s3Rename exRoot predefDirs s3Ex0 (chars "config") (chars "x")
      = .error .clientError := by
  refine ⟨by decide, by decide, by decide⟩

/-- C2 (amended): on both backends `rename(path, newPath)` fails with
`NotFound` when `path` does not exist, and with `IsDirectory` when `path` is
recognized as a directory (`isdir`) that is non-empty or whose name stripped
of slashes is predefined.  On the hierarchical backend `isdir` ignores the
trailing slash, so the predefined-directory check fires with or without it;
on the flat backend `isdir` requires the trailing slash, and a predefined
directory named without it is instead treated as a file whose copy fails
with a backend error.  Renaming a file (an exactly stored object / a stored
regular file) or an empty non-predefined directory succeeds, provided the
destination is free: on the hierarchical backend `os.rename` further
requires that no regular file blocks the destination's directory chain,
that the destination's parent resolves within that chain or already exists,
and that no directory occupies the destination (for a file source
`rename(2)` otherwise fails with `EISDIR`, surfacing as
`IsADirectoryError`) and, for a directory source, that neither a file nor a
directory occupies the destination and the destination does not lie inside
the source (`ENOTDIR`/`ENOTEMPTY`/`EINVAL` otherwise). -/
theorem c2_rename_preconditions (root : List Char) (pd : List (List Char))
    (st : S3State) (lst : LocalState) (p newP : List Char) :
    (s3Exists root st p = false → s3Rename root pd st p newP = .error .notFound)
  ∧ (localExists root lst p = false →
       localRename root pd lst p newP = .error .notFound)
  ∧ (s3Exists root st p = true → s3Isdir root st p = true →
       s3DirContents root st (normalizeDir p) true false ≠ [] →
       s3Rename root pd st p newP = .error .isADirectory)
  ∧ (s3Exists root st p = true → s3Isdir root st p = true →
       stripSlashes p ∈ pd →
       s3Rename root pd st p newP = .error .isADirectory)
  ∧ (∀ sz, (full_path root p, sz) ∈ st.objs → endsSlash p = false →
       p ≠ chars "/" →
       ∃ st1, s3Rename root pd st p newP = .ok st1)
  ∧ (s3Exists root st p = true → s3Isdir root st p = true →
       (∀ o ∈ st.objs, (full_path root p).isPrefixOf o.1 = true →
          o.1 = full_path root p) →
       stripSlashes p ∉ pd →
       ∃ st1, s3Rename root pd st p newP = .ok st1)
  ∧ (localExists root lst p = true → localIsdir root lst p = true →
       localDirContents root lst (normalizeDir p) true false ≠ [] →
       localRename root pd lst p newP = .error .isADirectory)
  ∧ (localExists root lst p = true → localIsdir root lst p = true →
       stripSlashes p ∈ pd →
       localRename root pd lst p newP = .error .isADirectory)
  ∧ (∀ sz, (pathComps (full_path root p), sz) ∈ lst.files →
       pathComps (full_path root p) ∉ lst.dirs →
       endsSlash (full_path root p) = false →
       (dirChain (full_path root (osPathSplitHead newP))).any
          (fun pr => lst.files.any (fun f => f.1 = pr)) = false →
       ((pathComps (full_path root newP)).dropLast ≠ [] →
          (pathComps (full_path root newP)).dropLast
              ∈ dirChain (full_path root (osPathSplitHead newP))
            ∨ (pathComps (full_path root newP)).dropLast ∈ lst.dirs) →
       pathComps (full_path root newP) ∉ lst.dirs →
       pathComps (full_path root newP)
           ∉ dirChain (full_path root (osPathSplitHead newP)) →
       ∃ lst1, localRename root pd lst p newP = .ok lst1)
  ∧ (localIsdir root lst p = true → p ≠ chars "/" →
       localDirContents root lst (normalizeDir p) true false = [] →
       stripSlashes p ∉ pd →
       (dirChain (full_path root (osPathSplitHead newP))).any
          (fun pr => lst.files.any (fun f => f.1 = pr)) = false →
       ((pathComps (full_path root newP)).dropLast ≠ [] →
          (pathComps (full_path root newP)).dropLast
              ∈ dirChain (full_path root (osPathSplitHead newP))
            ∨ (pathComps (full_path root newP)).dropLast ∈ lst.dirs) →
       lst.files.any (fun f => f.1 = pathComps (full_path root newP)) = false →
       pathComps (full_path root newP) ∉ lst.dirs →
       pathComps (full_path root newP)
           ∉ dirChain (full_path root (osPathSplitHead newP)) →
       (pathComps (full_path root p)).isPrefixOf
           (pathComps (full_path root newP)) = false →
       ∃ lst1, localRename root pd lst p newP = .ok lst1)
  ∧ (∀ sz, (pathComps (full_path root p), sz) ∈ lst.files →
       pathComps (full_path root p) ∉ lst.dirs →
       endsSlash (full_path root p) = false →
       (dirChain (full_path root (osPathSplitHead newP))).any
          (fun pr => lst.files.any (fun f => f.1 = pr)) = false →
       ((pathComps (full_path root newP)).dropLast ≠ [] →
          (pathComps (full_path root newP)).dropLast
              ∈ dirChain (full_path root (osPathSplitHead newP))
            ∨ (pathComps (full_path root newP)).dropLast ∈ lst.dirs) →
       pathComps (full_path root newP) ∈ lst.dirs →
       localRename root pd lst p newP = .error .isADirectory) := by
  refine ⟨fun hex => by simp [s3Rename, hex],
          fun hex => by simp [localRename, hex],
          fun hex hdir hne => ?_, fun hex hdir hpd => ?_,
          fun sz hmem hns hp => ?_, fun hex hdir hall hpd => ?_,
          fun hex hdir hne => ?_, fun hex hdir hpd => ?_,
          fun sz hmem hnd hslash hblock hpar hdd hdc => ?_,
          fun hdir hp hempty hpd hblock hpar hnofile hdd hdc hnotpfx => ?_,
          fun sz hmem hnd hslash hblock hpar hdst => ?_⟩
  · have hnd := s3Isdir_normalizeDir hdir
    rw [hnd] at hne
    simp [s3Rename, hex, hdir, hnd, List.isEmpty_eq_false.2 hne]
  · have hnd := s3Isdir_normalizeDir hdir
    by_cases hc : s3DirContents root st p true false = []
    · simp [s3Rename, hex, hdir, hnd, hc, hpd]
    · simp [s3Rename, hex, hdir, hnd, List.isEmpty_eq_false.2 hc]
  · have hex : s3Exists root st p = true :=
      s3Exists_of_mem hmem (List.isPrefixOf_iff_prefix.2 (List.prefix_refl _))
    have hdir : s3Isdir root st p = false := by
      simp [s3Isdir, hp, hns]
    have hsome : (st.objs.find? (fun o => o.1 = full_path root p)).isSome := by
      rw [List.find?_isSome]
      exact ⟨(full_path root p, sz), hmem, decide_eq_true rfl⟩
    obtain ⟨o, ho⟩ := Option.isSome_iff_exists.1 hsome
    have heq : s3Rename root pd st p newP = .ok (deleteObject
        (putObject st (full_path root newP) o.2) (full_path root p)) := by
      simp [s3Rename, hex, hdir, s3RenameFile, s3CopyObject, ho, Except.map]
    exact ⟨_, heq⟩
  · have hnd := s3Isdir_normalizeDir hdir
    have hc : s3DirContents root st p true false = [] :=
      s3DirContents_eq_nil root st p hall true false
    obtain ⟨o, hoo, hopfx⟩ := List.any_eq_true.1 hex
    have hkey : o.1 = full_path root p := hall o hoo hopfx
    have hsome : (st.objs.find? (fun o => o.1 = full_path root p)).isSome := by
      rw [List.find?_isSome]
      exact ⟨o, hoo, decide_eq_true hkey⟩
    obtain ⟨o1, ho1⟩ := Option.isSome_iff_exists.1 hsome
    have heq : s3Rename root pd st p newP = .ok (deleteObject
        (putObject st (full_path root newP) o1.2) (full_path root p)) := by
      simp [s3Rename, hex, hdir, hnd, hc, hpd, s3RenameFile, s3CopyObject, ho1,
        Except.map]
    exact ⟨_, heq⟩
  · have hn2 := localIsdir_normalizeDir hdir
    simp [localRename, hex, hdir, hn2, List.isEmpty_eq_false.2 hne]
  · have hn2 := localIsdir_normalizeDir hdir
    by_cases hc : localDirContents root lst (normalizeDir p) true false = []
    · simp [localRename, hex, hdir, hn2, hc, hpd]
    · simp [localRename, hex, hdir, hn2, List.isEmpty_eq_false.2 hc]
  · -- a stored regular file renames fine
    have hex : localExists root lst p = true := by
      unfold localExists osExists
      rw [hslash]
      simp only [Bool.false_eq_true, if_false, Bool.or_eq_true]
      refine Or.inr (List.any_eq_true.2 ⟨_, hmem, by simp⟩)
    have hp : p ≠ chars "/" := by
      intro h
      subst h
      have he : full_path root (chars "/") = root ++ ['/'] := rfl
      rw [he] at hslash
      revert hslash
      unfold endsSlash
      rw [List.getLast?_concat]
      simp
    have hdir : localIsdir root lst p = false := by
      simp [localIsdir, osIsdir, hp, hnd]
    obtain ⟨st1, hmk, hfiles, hdirs⟩ :=
      osMakedirs_spec lst (full_path root (osPathSplitHead newP)) hblock
    have hsnot : pathComps (full_path root p) ∉ st1.dirs := by
      intro hin
      rcases (hdirs _).1 hin with hch | hd
      · have hcontra : (dirChain (full_path root (osPathSplitHead newP))).any
            (fun pr => lst.files.any (fun f => f.1 = pr)) = true := by
          rw [List.any_eq_true]
          exact ⟨_, hch, List.any_eq_true.2 ⟨_, hmem, by simp⟩⟩
        rw [hblock] at hcontra
        exact Bool.noConfusion hcontra
      · exact hnd hd
    have hany : st1.files.any
        (fun f => f.1 = pathComps (full_path root p)) = true := by
      rw [hfiles, List.any_eq_true]
      exact ⟨_, hmem, by simp⟩
    have hpar1 : (!((pathComps (full_path root newP)).dropLast).isEmpty
        && !decide ((pathComps (full_path root newP)).dropLast ∈ st1.dirs))
        = false := by
      by_cases hdl : (pathComps (full_path root newP)).dropLast = []
      · simp [hdl]
      · have : (pathComps (full_path root newP)).dropLast ∈ st1.dirs := by
          rcases hpar hdl with h1 | h1
          · exact (hdirs _).2 (Or.inl h1)
          · exact (hdirs _).2 (Or.inr h1)
        simp [this]
    have hdstnot : pathComps (full_path root newP) ∉ st1.dirs := by
      intro hin
      rcases (hdirs _).1 hin with h1 | h1
      · exact hdc h1
      · exact hdd h1
    by_cases hsd : pathComps (full_path root p) = pathComps (full_path root newP)
    · have hany2 : st1.files.any
          (fun f => f.1 = pathComps (full_path root newP)) = true := by
        rw [← hsd]
        exact hany
      have hren : osRename st1 (full_path root p) (full_path root newP)
          = .ok st1 := by
        unfold osRename
        rw [hslash, hpar1]
        simp [hany, hany2, hsnot, hdstnot, hsd]
      have heq : localRename root pd lst p newP = .ok st1 := by
        simp only [localRename, hex, hdir, Bool.not_true, Bool.false_eq_true,
          if_false, localRenameFile, localCreateDirectory, hmk, hren]
      exact ⟨_, heq⟩
    · have hren : osRename st1 (full_path root p) (full_path root newP)
          = .ok ⟨st1.dirs,
              (st1.files.filter (fun f =>
                  !(f.1 = pathComps (full_path root newP) : Bool))).map
                (fun f => if f.1 = pathComps (full_path root p)
                  then (pathComps (full_path root newP), f.2) else f)⟩ := by
        unfold osRename
        rw [hslash, hpar1]
        simp [hany, hsnot, hdstnot, hsd]
      have heq : localRename root pd lst p newP = .ok ⟨st1.dirs,
          (st1.files.filter (fun f =>
              !(f.1 = pathComps (full_path root newP) : Bool))).map
            (fun f => if f.1 = pathComps (full_path root p)
              then (pathComps (full_path root newP), f.2) else f)⟩ := by
        simp only [localRename, hex, hdir, Bool.not_true, Bool.false_eq_true,
          if_false, localRenameFile, localCreateDirectory, hmk, hren]
      exact ⟨_, heq⟩
  · -- an empty non-predefined directory renames fine
    have hcomps : pathComps (full_path root p) ∈ lst.dirs := by
      unfold localIsdir at hdir
      rcases Bool.or_eq_true_iff.1 hdir with h1 | h1
      · exact absurd (by simpa using h1) hp
      · unfold osIsdir at h1
        simpa using h1
    have hex : localExists root lst p = true :=
      localExists_of_mem_dirs root lst p hcomps
    have hn2 := localIsdir_normalizeDir hdir
    obtain ⟨st1, hmk, hfiles, hdirs⟩ :=
      osMakedirs_spec lst (full_path root (osPathSplitHead newP)) hblock
    have hsin : pathComps (full_path root p) ∈ st1.dirs :=
      (hdirs _).2 (Or.inr hcomps)
    have hpar1 : (!((pathComps (full_path root newP)).dropLast).isEmpty
        && !decide ((pathComps (full_path root newP)).dropLast ∈ st1.dirs))
        = false := by
      by_cases hdl : (pathComps (full_path root newP)).dropLast = []
      · simp [hdl]
      · have : (pathComps (full_path root newP)).dropLast ∈ st1.dirs := by
          rcases hpar hdl with h1 | h1
          · exact (hdirs _).2 (Or.inl h1)
          · exact (hdirs _).2 (Or.inr h1)
        simp [this]
    have hsd : pathComps (full_path root p) ≠ pathComps (full_path root newP) := by
      intro h
      rw [h, List.isPrefixOf_iff_prefix.2 (List.prefix_refl _)] at hnotpfx
      exact Bool.noConfusion hnotpfx
    have hdstnot : pathComps (full_path root newP) ∉ st1.dirs := by
      intro hin
      rcases (hdirs _).1 hin with h1 | h1
      · exact hdc h1
      · exact hdd h1
    have hfile1 : st1.files.any
        (fun f => f.1 = pathComps (full_path root newP)) = false := by
      rw [hfiles]
      exact hnofile
    have hren : osRename st1 (full_path root p) (full_path root newP)
        = .ok ⟨(st1.dirs.filter (fun c =>
              !(c = pathComps (full_path root newP) : Bool))).map
            (fun c => if (pathComps (full_path root p)).isPrefixOf c
              then pathComps (full_path root newP)
                ++ c.drop (pathComps (full_path root p)).length else c),
          st1.files.map (fun f =>
            if (pathComps (full_path root p)).isPrefixOf f.1
            then (pathComps (full_path root newP)
              ++ f.1.drop (pathComps (full_path root p)).length, f.2) else f)⟩ := by
      unfold osRename
      rw [hpar1]
      simp [hsin, hsd, hfile1, hdstnot, hnotpfx]
    have heq : localRename root pd lst p newP = .ok ⟨(st1.dirs.filter (fun c =>
            !(c = pathComps (full_path root newP) : Bool))).map
          (fun c => if (pathComps (full_path root p)).isPrefixOf c
            then pathComps (full_path root newP)
              ++ c.drop (pathComps (full_path root p)).length else c),
        st1.files.map (fun f =>
          if (pathComps (full_path root p)).isPrefixOf f.1
          then (pathComps (full_path root newP)
            ++ f.1.drop (pathComps (full_path root p)).length, f.2) else f)⟩ := by
      simp only [localRename, hex, hdir, hn2, hempty, Bool.not_true,
        Bool.false_eq_true, if_false, List.isEmpty_nil, Bool.not_false, if_true,
        ite_false, ite_true, localRenameFile, localCreateDirectory, hmk, hren]
      simp [hpd]
    exact ⟨_, heq⟩
  · -- a file source onto an existing directory: EISDIR, surfaced as 405
    have hex : localExists root lst p = true := by
      unfold localExists osExists
      rw [hslash]
      simp only [Bool.false_eq_true, if_false, Bool.or_eq_true]
      refine Or.inr (List.any_eq_true.2 ⟨_, hmem, by simp⟩)
    have hp : p ≠ chars "/" := by
      intro h
      subst h
      have he : full_path root (chars "/") = root ++ ['/'] := rfl
      rw [he] at hslash
      revert hslash
      unfold endsSlash
      rw [List.getLast?_concat]
      simp
    have hdir : localIsdir root lst p = false := by
      simp [localIsdir, osIsdir, hp, hnd]
    obtain ⟨st1, hmk, hfiles, hdirs⟩ :=
      osMakedirs_spec lst (full_path root (osPathSplitHead newP)) hblock
    have hsnot : pathComps (full_path root p) ∉ st1.dirs := by
      intro hin
      rcases (hdirs _).1 hin with hch | hd
      · have hcontra : (dirChain (full_path root (osPathSplitHead newP))).any
            (fun pr => lst.files.any (fun f => f.1 = pr)) = true := by
          rw [List.any_eq_true]
          exact ⟨_, hch, List.any_eq_true.2 ⟨_, hmem, by simp⟩⟩
        rw [hblock] at hcontra
        exact Bool.noConfusion hcontra
      · exact hnd hd
    have hany : st1.files.any
        (fun f => f.1 = pathComps (full_path root p)) = true := by
      rw [hfiles, List.any_eq_true]
      exact ⟨_, hmem, by simp⟩
    have hpar1 : (!((pathComps (full_path root newP)).dropLast).isEmpty
        && !decide ((pathComps (full_path root newP)).dropLast ∈ st1.dirs))
        = false := by
      by_cases hdl : (pathComps (full_path root newP)).dropLast = []
      · simp [hdl]
      · have : (pathComps (full_path root newP)).dropLast ∈ st1.dirs := by
          rcases hpar hdl with h1 | h1
          · exact (hdirs _).2 (Or.inl h1)
          · exact (hdirs _).2 (Or.inr h1)
        simp [this]
    have hdstin : pathComps (full_path root newP) ∈ st1.dirs :=
      (hdirs _).2 (Or.inr hdst)
    have hren : osRename st1 (full_path root p) (full_path root newP)
        = .error .isADirectory := by
      unfold osRename
      rw [hslash, hpar1]
      simp [hany, hsnot, hdstin]
    simp only [localRename, hex, hdir, Bool.not_true, Bool.false_eq_true,
      if_false, localRenameFile, localCreateDirectory, hmk, hren]

/-- C2 witness: the amended theorem applied at concrete inputs on both
backends -- a missing source, a predefined directory (with the trailing
slash on the flat backend, without it on the hierarchical one), a
successful file rename to a free destination, and a file rename onto an
existing directory failing with `EISDIR`. -/
theorem c2_rename_preconditions_witness :
    s3Rename exRoot predefDirs s3Ex0 (chars "nope") (chars "x")
      = .error .notFound
  ∧ s3Rename exRoot predefDirs s3Ex0 (chars "config/") (chars "x")
      = .error .isADirectory
  ∧ (∃ st1, s3Rename exRoot predefDirs s3Ex1 (chars "data/test/a.txt")
      (chars "data/test2/c.txt") = .ok st1)
  ∧ localRename exRoot predefDirs localEx0 (chars "config") (chars "x")
      = .error .isADirectory
  ∧ (∃ lst1, localRename exRoot predefDirs localEx1 (chars "data/test/a.txt")
      (chars "data/test2/c.txt") = .ok lst1)
  ∧ localRename exRoot predefDirs localEx1 (chars "data/test/a.txt")
      (chars "config") = .error .isADirectory := by
  refine ⟨?_, ?_, ?_, ?_, ?_, ?_⟩
  · exact (c2_rename_preconditions exRoot predefDirs s3Ex0 localEx0
      (chars "nope") (chars "x")).1 (by decide)
  · exact (c2_rename_preconditions exRoot predefDirs s3Ex0 localEx0
      (chars "config/") (chars "x")).2.2.2.1 (by decide) (by decide) (by decide)
  · exact (c2_rename_preconditions exRoot predefDirs s3Ex1 localEx1
      (chars "data/test/a.txt") (chars "data/test2/c.txt")).2.2.2.2.1 3
      (by decide) (by decide) (by decide)
  · exact (c2_rename_preconditions exRoot predefDirs s3Ex0 localEx0
      (chars "config") (chars "x")).2.2.2.2.2.2.2.1 (by decide) (by decide)
      (by decide)
  · exact (c2_rename_preconditions exRoot predefDirs s3Ex1 localEx1
      (chars "data/test/a.txt") (chars "data/test2/c.txt")).2.2.2.2.2.2.2.2.1 3
      (by decide) (by decide) (by decide) (by decide) (by decide) (by decide)
      (by decide)
  · exact (c2_rename_preconditions exRoot predefDirs s3Ex1 localEx1
      (chars "data/test/a.txt") (chars "config")).2.2.2.2.2.2.2.2.2.2 3
      (by decide) (by decide) (by decide) (by decide) (by decide) (by decide)

/-! ### Helper lemmas for the delete/self-heal claim -/

theorem mem_eraseP_of_not {α : Type} {p : α → Bool} {a : α} {l : List α}
    (h : a ∈ l) (hp : p a = false) : a ∈ l.eraseP p := by
  induction l with
  | nil => cases h
  | cons b bs ih =>
    rw [List.eraseP_cons]
    cases hb : p b with
    | true =>
      simp only [hb, cond_true]
      rcases List.mem_cons.1 h with h1 | h1
      · subst h1
        rw [hp] at hb
        exact Bool.noConfusion hb
      · exact h1
    | false =>
      simp only [hb, cond_false]
      rcases List.mem_cons.1 h with h1 | h1
      · exact h1 ▸ List.mem_cons_self _ _
      · exact List.mem_cons_of_mem _ (ih h1)

theorem any_pfx_filter_false (fp : List Char) (l : List (List Char × Nat)) :
    ((l.filter (fun o => !fp.isPrefixOf o.1)).any
      (fun o => fp.isPrefixOf o.1)) = false := by
  cases hany : (l.filter (fun o => !fp.isPrefixOf o.1)).any
      (fun o => fp.isPrefixOf o.1) with
  | false => rfl
  | true =>
    exfalso
    obtain ⟨o, ho, hpfx⟩ := List.any_eq_true.1 hany
    have := (List.mem_filter.1 ho).2
    rw [hpfx] at this
    exact Bool.noConfusion this

theorem s3InitFold_mem (root : List Char) (ds : List (List Char)) :
    ∀ (st : S3State),
      ∀ o ∈ (ds.foldl (fun s d => s3CreateDirectory root s (d ++ ['/'])) st).objs,
        (∃ d ∈ ds, o.1 = full_path root (d ++ ['/'])) ∨ o ∈ st.objs := by
  induction ds with
  | nil => intro st o ho; exact Or.inr ho
  | cons d ds ih =>
    intro st o ho
    rcases ih (s3CreateDirectory root st (d ++ ['/'])) o ho with h | h
    · obtain ⟨e, he, hke⟩ := h
      exact Or.inl ⟨e, List.mem_cons_of_mem _ he, hke⟩
    · rcases List.mem_cons.1 h with h1 | h1
      · exact Or.inl ⟨d, List.mem_cons_self _ _, by rw [h1]⟩
      · exact Or.inr (List.mem_of_mem_eraseP h1)

theorem s3Fold_persist (root : List Char) (ds : List (List Char)) :
    ∀ (st : S3State) (k : List Char), (∃ sz, (k, sz) ∈ st.objs) →
      ∃ sz, (k, sz)
        ∈ (ds.foldl (fun s d => s3CreateDirectory root s (d ++ ['/'])) st).objs := by
  induction ds with
  | nil => intro st k h; exact h
  | cons e ds ih =>
    intro st k h
    apply ih
    obtain ⟨sz, hsz⟩ := h
    by_cases hk : k = full_path root (e ++ ['/'])
    · exact ⟨0, by rw [hk]; exact List.mem_cons_self _ _⟩
    · refine ⟨sz, List.mem_cons_of_mem _ (mem_eraseP_of_not hsz ?_)⟩
      simp [hk]

theorem s3InitFold_marker (root : List Char) (ds : List (List Char)) :
    ∀ (st : S3State), ∀ d ∈ ds, ∃ sz, (full_path root (d ++ ['/']), sz)
      ∈ (ds.foldl (fun s d => s3CreateDirectory root s (d ++ ['/'])) st).objs := by
  induction ds with
  | nil => intro st d hd; cases hd
  | cons e ds ih =>
    intro st d hd
    rcases List.mem_cons.1 hd with h | h
    · subst h
      exact s3Fold_persist root ds _ _ ⟨0, List.mem_cons_self _ _⟩
    · exact ih _ d h

/-- `full_path` of a simple relative directory name. -/
theorem full_path_simple (root dc : List Char)
    (h1 : startsSlash (dc ++ ['/']) = false)
    (h2 : pathComps (dc ++ ['/']) = [dc]) :
    full_path root (dc ++ ['/']) = (root ++ '/' :: dc) ++ ['/'] := by
  have hse : endsSlash (dc ++ ['/']) = true := by
    unfold endsSlash
    rw [List.getLast?_concat]
    simp
  unfold full_path
  rw [h1, hse]
  simp only [Bool.false_eq_true, if_false, if_true]
  rw [h1, h2]
  simp [joinSlash]

/-- The full path of each predefined directory is the root followed by the
slash-delimited name. -/
theorem predef_full_path (root : List Char) :
    ∀ e ∈ predefDirs, full_path root (e ++ ['/'])
      = root ++ ('/' :: e ++ ['/']) := by
  intro e he
  fin_cases he <;>
    rw [full_path_simple root _ (by decide) (by decide), List.append_assoc]

/-- Distinct predefined directory names never prefix one another. -/
theorem predef_pfx {dc e : List Char} (hd : dc ∈ predefDirs)
    (he : e ∈ predefDirs)
    (hpfx : ('/' :: dc ++ ['/']).isPrefixOf ('/' :: e ++ ['/']) = true) :
    dc = e := by
  fin_cases hd <;> fin_cases he <;> first | rfl | (exfalso; revert hpfx; decide)

theorem predef_not_pfx_root {dc : List Char} (hd : dc ∈ predefDirs) :
    ('/' :: dc ++ ['/']).isPrefixOf ['/'] = false := by
  fin_cases hd <;> decide

theorem slash_isPrefixOf_cons (x : List Char) :
    ['/'].isPrefixOf ('/' :: x) = true := by
  simp [List.isPrefixOf]

/-- After wiping everything under the root, re-running `init` restores an
existing root and existing-but-empty predefined directories. -/
theorem s3Init_after_root_delete (root : List Char) (st1 : S3State)
    (hst1 : ∀ o ∈ st1.objs, (root ++ ['/']).isPrefixOf o.1 = false) :
    s3Exists root (s3Init root predefDirs st1) (chars "/") = true
    ∧ ∀ dc ∈ predefDirs,
        s3Exists root (s3Init root predefDirs st1) (dc ++ ['/']) = true
        ∧ s3ListDirectory root (s3Init root predefDirs st1) (dc ++ ['/'])
            true false = .ok [] := by
  constructor
  · obtain ⟨sz, hm⟩ := s3InitFold_marker root (predefDirs ++ [[]]) st1 []
      (by simp)
    exact s3Exists_of_mem hm
      (List.isPrefixOf_iff_prefix.2 (List.prefix_refl _))
  intro dc hd
  obtain ⟨sz, hm⟩ := s3InitFold_marker root (predefDirs ++ [[]]) st1 dc
    (List.mem_append_left _ hd)
  have hexd : s3Exists root (s3Init root predefDirs st1) (dc ++ ['/']) = true :=
    s3Exists_of_mem hm (List.isPrefixOf_iff_prefix.2 (List.prefix_refl _))
  refine ⟨hexd, ?_⟩
  have hall : ∀ o ∈ (s3Init root predefDirs st1).objs,
      (full_path root (dc ++ ['/'])).isPrefixOf o.1 = true →
      o.1 = full_path root (dc ++ ['/']) := by
    intro o ho hpfx
    have hfpd := predef_full_path root dc hd
    rcases s3InitFold_mem root (predefDirs ++ [[]]) st1 o ho with ⟨e, he, hke⟩ | hin
    · rcases List.mem_append.1 he with he1 | he2
      · have hfpe := predef_full_path root e he1
        rw [hke, hfpe, hfpd, List.isPrefixOf_iff_prefix,
          List.prefix_append_right_inj] at hpfx
        have hde := predef_pfx hd he1 (List.isPrefixOf_iff_prefix.2 hpfx)
        rw [hke, hfpe, hfpd, hde]
      · exfalso
        have he0 : e = [] := by simpa using he2
        subst he0
        have hko : o.1 = root ++ ['/'] := hke
        rw [hko, hfpd, List.isPrefixOf_iff_prefix,
          List.prefix_append_right_inj] at hpfx
        have h2 := List.isPrefixOf_iff_prefix.2 hpfx
        rw [predef_not_pfx_root hd] at h2
        exact Bool.noConfusion h2
    · exfalso
      have hro : (root ++ ['/']).isPrefixOf o.1 = false := hst1 o hin
      have h1 : (root ++ ['/']) <+: full_path root (dc ++ ['/']) := by
        rw [predef_full_path root dc hd]
        exact (List.prefix_append_right_inj root).2
          (List.isPrefixOf_iff_prefix.1 (slash_isPrefixOf_cons (dc ++ ['/'])))
      have h2 : full_path root (dc ++ ['/']) <+: o.1 :=
        List.isPrefixOf_iff_prefix.1 hpfx
      have h3 := List.isPrefixOf_iff_prefix.2 (h1.trans h2)
      rw [hro] at h3
      exact Bool.noConfusion h3
  have hnil := s3DirContents_eq_nil root (s3Init root predefDirs st1)
    (dc ++ ['/']) hall true false
  have hends : endsSlash (dc ++ ['/']) = true := by
    unfold endsSlash
    rw [List.getLast?_concat]
    simp
  have hnorm : normalizeDir (dc ++ ['/']) = dc ++ ['/'] := by
    unfold normalizeDir
    rw [hends]
    simp
  have hisdir : s3Isdir root (s3Init root predefDirs st1) (dc ++ ['/']) = true := by
    unfold s3Isdir
    rw [hexd, hends]
    simp
  unfold s3ListDirectory
  rw [hnorm, hisdir, hnil]
  simp

/-- The resolved components of each predefined directory's full path. -/
theorem predef_pathComps (root : List Char) :
    ∀ e ∈ predefDirs, pathComps (full_path root (e ++ ['/']))
      = pathComps root ++ [e] := by
  intro e he
  rw [predef_full_path root e he]
  show pathComps (root ++ '/' :: (e ++ ['/'])) = pathComps root ++ [e]
  rw [pathComps_append_slash]
  congr 1
  fin_cases he <;> decide

/-- Well-formedness of the OS tree: no empty directory key, directories are
closed under (nonempty) ancestors, and no path is both a file and a
directory.  (Real OS states satisfy all three.) -/
def LocalWF (st : LocalState) : Prop :=
  [] ∉ st.dirs
  ∧ (∀ c ∈ st.dirs, ∀ pr ∈ c.inits, pr ≠ [] → pr ∈ st.dirs)
  ∧ (∀ f ∈ st.files, f.1 ∉ st.dirs)

instance (st : LocalState) : Decidable (LocalWF st) := by
  unfold LocalWF
  infer_instance

theorem localChildNames_eq_nil (st : LocalState) (base : List (List Char))
    (hd : ∀ c ∈ st.dirs,
      ((c.length = base.length + 1 : Bool) && base.isPrefixOf c) = false)
    (hf : ∀ f ∈ st.files,
      ((f.1.length = base.length + 1 : Bool) && base.isPrefixOf f.1) = false) :
    localChildNames st base = [] := by
  unfold localChildNames
  have h1 : st.dirs.filterMap (fun c =>
      if c.length = base.length + 1 && base.isPrefixOf c
      then c.getLast? else none) = [] := by
    rw [List.filterMap_eq_nil_iff]
    intro c hc
    rw [hd c hc]
    rfl
  have h2 : st.files.filterMap (fun f =>
      if f.1.length = base.length + 1 && base.isPrefixOf f.1
      then f.1.getLast? else none) = [] := by
    rw [List.filterMap_eq_nil_iff]
    intro f hfm
    rw [hf f hfm]
    rfl
  rw [h1, h2]
  rfl

theorem localDirContents_nil (root : List Char) (st : LocalState)
    (path : List Char)
    (hcn : localChildNames st (pathComps (full_path root path)) = []) :
    localDirContents root st path true false = [] := by
  simp [localDirContents, hcn]

theorem localListDirectory_ok_nil (root : List Char) (st : LocalState)
    (p : List Char)
    (hisdir : localIsdir root st (normalizeDir p) = true)
    (hcn : localChildNames st (pathComps (full_path root (normalizeDir p))) = []) :
    localListDirectory root st p true false = .ok [] := by
  unfold localListDirectory
  rw [hisdir]
  simp only [Bool.not_true, Bool.false_eq_true, if_false]
  rw [localDirContents_nil root st (normalizeDir p) hcn]

/-- Successful run of a sequence of `create_directory(d + "/")` calls: no
blocking file for any of the targets yields a final state with the same
files and exactly the targets' directory chains added. -/
theorem localInitFold_spec (root : List Char) (ds : List (List Char)) :
    ∀ (st : LocalState),
    (∀ d ∈ ds, (dirChain (full_path root (d ++ ['/']))).any
        (fun pr => st.files.any (fun f => f.1 = pr)) = false) →
    ∃ fin, (ds.foldlM (fun s d => localCreateDirectory root s (d ++ ['/'])) st
        : Except FsErr LocalState) = .ok fin
      ∧ fin.files = st.files
      ∧ ∀ c, c ∈ fin.dirs
          ↔ (∃ d ∈ ds, c ∈ dirChain (full_path root (d ++ ['/'])))
            ∨ c ∈ st.dirs := by
  induction ds with
  | nil =>
    intro st _
    exact ⟨st, rfl, rfl, by simp⟩
  | cons d ds ih =>
    intro st hblock
    obtain ⟨st1, hmk, hf1, hd1⟩ := osMakedirs_spec st (full_path root (d ++ ['/']))
      (hblock d (List.mem_cons_self _ _))
    have hblock1 : ∀ e ∈ ds, (dirChain (full_path root (e ++ ['/']))).any
        (fun pr => st1.files.any (fun f => f.1 = pr)) = false := by
      intro e he
      rw [hf1]
      exact hblock e (List.mem_cons_of_mem _ he)
    obtain ⟨fin, hfold, hff, hfd⟩ := ih st1 hblock1
    refine ⟨fin, ?_, by rw [hff, hf1], fun c => ?_⟩
    · rw [List.foldlM_cons]
      show (localCreateDirectory root st (d ++ ['/'])).bind _ = _
      rw [show localCreateDirectory root st (d ++ ['/'])
          = osMakedirs st (full_path root (d ++ ['/'])) from rfl, hmk]
      exact hfold
    · rw [hfd c, hd1 c]
      constructor
      · rintro (h | h | h)
        · obtain ⟨e, he, hc⟩ := h
          exact Or.inl ⟨e, List.mem_cons_of_mem _ he, hc⟩
        · exact Or.inl ⟨d, List.mem_cons_self _ _, h⟩
        · exact Or.inr h
      · rintro (⟨e, he, hc⟩ | h)
        · rcases List.mem_cons.1 he with h1 | h1
          · subst h1
            exact Or.inr (Or.inl hc)
          · exact Or.inl ⟨e, h1, hc⟩
        · exact Or.inr (Or.inr h)

theorem s3Isdir_exists {root : List Char} {st : S3State} {p : List Char}
    (h : s3Isdir root st p = true) (hp : p ≠ chars "/") :
    s3Exists root st p = true := by
  unfold s3Isdir at h
  rcases Bool.or_eq_true_iff.1 h with h1 | h1
  · exact absurd (by simpa using h1) hp
  · exact ((Bool.and_eq_true _ _).mp h1).1

theorem s3Delete_dir_exists_false (root : List Char) (pd : List (List Char))
    (st : S3State) (p : List Char) (hdir : s3Isdir root st p = true)
    (hp : p ≠ chars "/") (hp0 : p ≠ []) (hpd : stripSlashes p ∉ pd) :
    s3Exists root (s3Delete root pd st p) p = false := by
  have hex := s3Isdir_exists hdir hp
  have hdel : s3Delete root pd st p = s3DeleteDirectory root st p := by
    unfold s3Delete
    rw [hex, hdir]
    simp [hp, hp0, hpd]
  rw [hdel]
  exact any_pfx_filter_false _ _

theorem s3Delete_file_exists_false (root : List Char) (pd : List (List Char))
    (st : S3State) (p : List Char) (hdir : s3Isdir root st p = false)
    (hall : ∀ o ∈ st.objs, (full_path root p).isPrefixOf o.1 = true →
       o.1 = full_path root p) :
    s3Exists root (s3Delete root pd st p) p = false := by
  cases hex : s3Exists root st p with
  | false => simp [s3Delete, hex]
  | true =>
    have hdel : s3Delete root pd st p = s3DeleteFile root st p := by
      unfold s3Delete
      rw [hex, hdir]
      simp
    rw [hdel]
    show ((st.objs.filter (fun o => !(o.1 = full_path root p : Bool))).any
      (fun o => (full_path root p).isPrefixOf o.1)) = false
    cases hany : ((st.objs.filter (fun o => !(o.1 = full_path root p : Bool))).any
        (fun o => (full_path root p).isPrefixOf o.1)) with
    | false => rfl
    | true =>
      exfalso
      obtain ⟨o, ho, hpfx⟩ := List.any_eq_true.1 hany
      have h1 := List.mem_filter.1 ho
      have h2 := hall o h1.1 hpfx
      have h3 : o.1 ≠ full_path root p := by simpa using h1.2
      exact h3 h2

theorem s3Delete_predef_selfheal (root : List Char) (pd : List (List Char))
    (st : S3State) (p : List Char) (hdir : s3Isdir root st p = true)
    (hp : p ≠ chars "/") (hp0 : p ≠ []) (hpd : stripSlashes p ∈ pd) :
    s3Exists root (s3Delete root pd st p) p = true
    ∧ s3ListDirectory root (s3Delete root pd st p) p true false = .ok [] := by
  have hex := s3Isdir_exists hdir hp
  have hends := s3Isdir_endsSlash hdir
  have hdel : s3Delete root pd st p
      = s3CreateDirectory root (s3DeleteDirectory root st p) p := by
    unfold s3Delete
    rw [hex, hdir]
    simp [hp, hp0, hpd]
  have hhead : (full_path root p, 0)
      ∈ (s3CreateDirectory root (s3DeleteDirectory root st p) p).objs :=
    List.mem_cons_self _ _
  have hexafter : s3Exists root
      (s3CreateDirectory root (s3DeleteDirectory root st p) p) p = true :=
    s3Exists_of_mem hhead (List.isPrefixOf_iff_prefix.2 (List.prefix_refl _))
  have hall : ∀ o ∈ (s3CreateDirectory root (s3DeleteDirectory root st p) p).objs,
      (full_path root p).isPrefixOf o.1 = true → o.1 = full_path root p := by
    intro o ho hpfx
    rcases List.mem_cons.1 ho with h1 | h1
    · rw [h1]
    · exfalso
      have h2 := List.mem_of_mem_eraseP h1
      have h3 := (List.mem_filter.1 h2).2
      rw [hpfx] at h3
      exact Bool.noConfusion h3
  rw [hdel]
  refine ⟨hexafter, ?_⟩
  have hnil := s3DirContents_eq_nil root _ p hall true false
  have hnorm : normalizeDir p = p := by
    unfold normalizeDir
    rw [hends]
    simp
  have hisdir : s3Isdir root
      (s3CreateDirectory root (s3DeleteDirectory root st p) p) p = true := by
    unfold s3Isdir
    rw [hexafter, hends]
    simp
  unfold s3ListDirectory
  rw [hnorm, hisdir, hnil]
  simp

theorem s3Delete_root_selfheal (root : List Char) (st : S3State)
    (hexroot : s3Exists root st (chars "/") = true) :
    s3Exists root (s3Delete root predefDirs st (chars "/")) (chars "/") = true
    ∧ ∀ dc ∈ predefDirs,
        s3Exists root (s3Delete root predefDirs st (chars "/")) (dc ++ ['/']) = true
        ∧ s3ListDirectory root (s3Delete root predefDirs st (chars "/"))
            (dc ++ ['/']) true false = .ok [] := by
  have hdel : s3Delete root predefDirs st (chars "/")
      = s3Init root predefDirs (s3DeleteDirectory root st (chars "/")) := by
    unfold s3Delete
    rw [hexroot]
    simp [s3Isdir]
  have hst1 : ∀ o ∈ (s3DeleteDirectory root st (chars "/")).objs,
      (root ++ ['/']).isPrefixOf o.1 = false := by
    intro o ho
    have h := (List.mem_filter.1 ho).2
    have h2 : (!(root ++ ['/']).isPrefixOf o.1) = true := h
    simpa using h2
  rw [hdel]
  exact s3Init_after_root_delete root _ hst1

theorem localDelete_dir_exists_false (root : List Char) (pd : List (List Char))
    (lst : LocalState) (p : List Char) (hdir : localIsdir root lst p = true)
    (hex : localExists root lst p = true) (hp : p ≠ chars "/") (hp0 : p ≠ [])
    (hpd : stripSlashes p ∉ pd) :
    ∃ lst1, localDelete root pd lst p = .ok lst1
      ∧ localExists root lst1 p = false := by
  have hdel : localDelete root pd lst p = .ok (osRmtree lst (full_path root p)) := by
    unfold localDelete
    rw [hex, hdir]
    simp [hp, hp0, hpd]
  refine ⟨_, hdel, ?_⟩
  have hdirs : pathComps (full_path root p)
      ∉ (osRmtree lst (full_path root p)).dirs := by
    intro hmem
    have h := (List.mem_filter.1 hmem).2
    rw [List.isPrefixOf_iff_prefix.2 (List.prefix_refl _)] at h
    exact Bool.noConfusion h
  have hfiles : ((osRmtree lst (full_path root p)).files.any
      (fun f => f.1 = pathComps (full_path root p))) = false := by
    cases hany : ((osRmtree lst (full_path root p)).files.any
        (fun f => f.1 = pathComps (full_path root p))) with
    | false => rfl
    | true =>
      exfalso
      obtain ⟨f, hf, hfeq⟩ := List.any_eq_true.1 hany
      have h1 := (List.mem_filter.1 hf).2
      have h2 : f.1 = pathComps (full_path root p) := by simpa using hfeq
      rw [h2, List.isPrefixOf_iff_prefix.2 (List.prefix_refl _)] at h1
      exact Bool.noConfusion h1
  unfold localExists osExists
  by_cases hsl : endsSlash (full_path root p) = true <;> simp [hsl, hdirs, hfiles]

theorem localDelete_file_exists_false (root : List Char) (pd : List (List Char))
    (lst : LocalState) (p : List Char) (hdir : localIsdir root lst p = false)
    (hex : localExists root lst p = true) :
    ∃ lst1, localDelete root pd lst p = .ok lst1
      ∧ localExists root lst1 p = false := by
  have hnd : pathComps (full_path root p) ∉ lst.dirs := by
    intro hmem
    unfold localIsdir osIsdir at hdir
    simp [hmem] at hdir
  have hsl : endsSlash (full_path root p) = false := by
    cases hsl : endsSlash (full_path root p) with
    | false => rfl
    | true =>
      exfalso
      unfold localExists osExists at hex
      rw [hsl] at hex
      simp at hex
      exact hnd hex
  have hdel : localDelete root pd lst p = .ok (osRemove lst (full_path root p)) := by
    unfold localDelete
    rw [hex, hdir]
    simp
  refine ⟨_, hdel, ?_⟩
  have hfa : ((osRemove lst (full_path root p)).files.any
      (fun f => f.1 = pathComps (full_path root p))) = false := by
    cases hany : ((osRemove lst (full_path root p)).files.any
        (fun f => f.1 = pathComps (full_path root p))) with
    | false => rfl
    | true =>
      exfalso
      obtain ⟨f, hf, hfeq⟩ := List.any_eq_true.1 hany
      have h1 := (List.mem_filter.1 hf).2
      rw [hfeq] at h1
      exact Bool.noConfusion h1
  unfold localExists osExists
  rw [hsl]
  simp [osRemove, hnd, hfa]

theorem localIsdir_comps_mem {root : List Char} {lst : LocalState} {p : List Char}
    (hdir : localIsdir root lst p = true) (hp : p ≠ chars "/") :
    pathComps (full_path root p) ∈ lst.dirs := by
  unfold localIsdir at hdir
  rcases Bool.or_eq_true_iff.1 hdir with h1 | h1
  · exact absurd (by simpa using h1) hp
  · unfold osIsdir at h1
    simpa using h1

theorem localDelete_predef_selfheal (root : List Char) (pd : List (List Char))
    (lst : LocalState) (p : List Char) (hwf : LocalWF lst)
    (hdir : localIsdir root lst p = true) (hp : p ≠ chars "/") (hp0 : p ≠ [])
    (hpd : stripSlashes p ∈ pd) :
    ∃ lst1, localDelete root pd lst p = .ok lst1
      ∧ localExists root lst1 p = true
      ∧ localListDirectory root lst1 p true false = .ok [] := by
  obtain ⟨hwf0, hwfC, hwfD⟩ := hwf
  have hcomps := localIsdir_comps_mem hdir hp
  have hex := localExists_of_mem_dirs root lst p hcomps
  have hBne : pathComps (full_path root p) ≠ [] := fun h => hwf0 (h ▸ hcomps)
  have hblock : (dirChain (full_path root p)).any
      (fun pr => (osRmtree lst (full_path root p)).files.any
        (fun f => f.1 = pr)) = false := by
    cases hany : (dirChain (full_path root p)).any
        (fun pr => (osRmtree lst (full_path root p)).files.any
          (fun f => f.1 = pr)) with
    | false => rfl
    | true =>
      exfalso
      obtain ⟨pr, hpr, hprf⟩ := List.any_eq_true.1 hany
      obtain ⟨f, hf, hfeq⟩ := List.any_eq_true.1 hprf
      have hf2 := List.mem_filter.1 hf
      have hfeq1 : f.1 = pr := by simpa using hfeq
      have hpr2 := List.mem_filter.1 hpr
      have hprpfx : pr <+: pathComps (full_path root p) :=
        (List.mem_inits _ _).1 hpr2.1
      have hprne : pr ≠ [] := by simpa using hpr2.2
      have hprdirs : pr ∈ lst.dirs :=
        hwfC _ hcomps pr ((List.mem_inits _ _).2 hprpfx) hprne
      exact hwfD f hf2.1 (hfeq1 ▸ hprdirs)
  obtain ⟨lst1, hmk, hfs, hds⟩ :=
    osMakedirs_spec (osRmtree lst (full_path root p)) (full_path root p) hblock
  have hdel : localDelete root pd lst p = .ok lst1 := by
    unfold localDelete
    rw [hex, hdir]
    simp only [Bool.not_true, Bool.false_eq_true, if_false, if_true]
    rw [if_neg (by simp [hp, hp0]), if_pos hpd]
    exact hmk
  have hBin : pathComps (full_path root p) ∈ lst1.dirs := by
    refine (hds _).2 (Or.inl ?_)
    unfold dirChain
    rw [List.mem_filter]
    exact ⟨(List.mem_inits _ _).2 (List.prefix_refl _), by simpa using hBne⟩
  refine ⟨lst1, hdel, localExists_of_mem_dirs root lst1 p hBin, ?_⟩
  have hisdir1 : localIsdir root lst1 p = true := by
    unfold localIsdir osIsdir
    simp [hBin]
  have hnormIsdir := localIsdir_normalizeDir hisdir1
  have hBnorm : pathComps (full_path root (normalizeDir p))
      = pathComps (full_path root p) := by
    unfold normalizeDir
    cases hsl : endsSlash p with
    | true => simp
    | false =>
      simp only [Bool.false_eq_true, if_false]
      rw [full_path_snoc_slash root p hp0 hp hsl, pathComps_trailing_slash]
  apply localListDirectory_ok_nil root lst1 p hnormIsdir
  rw [hBnorm]
  apply localChildNames_eq_nil
  · intro c hc
    rcases (hds c).1 hc with h1 | h1
    · have hc1 := List.mem_filter.1 h1
      have hlen := ((List.mem_inits _ _).1 hc1.1).length_le
      have hfalse : (c.length = (pathComps (full_path root p)).length + 1 : Bool)
          = false := by
        simp
        omega
      simp [hfalse]
    · have hc1 := (List.mem_filter.1 h1).2
      have hfalse : (pathComps (full_path root p)).isPrefixOf c = false := by
        simpa using hc1
      simp [hfalse]
  · intro f hfm
    rw [hfs] at hfm
    have hc1 := (List.mem_filter.1 hfm).2
    have hfalse : (pathComps (full_path root p)).isPrefixOf f.1 = false := by
      simpa using hc1
    simp [hfalse]

theorem localDelete_root_selfheal (root : List Char) (lst : LocalState)
    (hwf : LocalWF lst) (hroot : pathComps root ∈ lst.dirs) :
    ∃ lst1, localDelete root predefDirs lst (chars "/") = .ok lst1
      ∧ localExists root lst1 (chars "/") = true
      ∧ ∀ dc ∈ predefDirs,
          localExists root lst1 (dc ++ ['/']) = true
          ∧ localListDirectory root lst1 (dc ++ ['/']) true false = .ok [] := by
  obtain ⟨hwf0, hwfC, hwfD⟩ := hwf
  have hrcne : pathComps root ≠ [] := fun h => hwf0 (h ▸ hroot)
  have hfp : full_path root (chars "/") = root ++ ['/'] := rfl
  have hB : pathComps (full_path root (chars "/")) = pathComps root := by
    rw [hfp, pathComps_trailing_slash]
  have hex : localExists root lst (chars "/") = true :=
    localExists_of_mem_dirs root lst (chars "/") (by rw [hB]; exact hroot)
  have hst1f : ∀ f ∈ (osRmtree lst (full_path root (chars "/"))).files,
      (pathComps root).isPrefixOf f.1 = false := by
    intro f hf
    have h := (List.mem_filter.1 hf).2
    rw [hB] at h
    simpa using h
  have hblockAll : ∀ d ∈ (predefDirs ++ [[]] : List (List Char)),
      (dirChain (full_path root (d ++ ['/']))).any (fun pr =>
        (osRmtree lst (full_path root (chars "/"))).files.any
          (fun f => f.1 = pr)) = false := by
    intro d hd
    cases hany : (dirChain (full_path root (d ++ ['/']))).any (fun pr =>
        (osRmtree lst (full_path root (chars "/"))).files.any
          (fun f => f.1 = pr)) with
    | false => rfl
    | true =>
      exfalso
      obtain ⟨pr, hpr, hprf⟩ := List.any_eq_true.1 hany
      obtain ⟨f, hf, hfeq⟩ := List.any_eq_true.1 hprf
      have hfeq1 : f.1 = pr := by simpa using hfeq
      have hpr2 := List.mem_filter.1 hpr
      have hprne : pr ≠ [] := by simpa using hpr2.2
      have hfl : f ∈ lst.files := (List.mem_filter.1 hf).1
      rcases List.mem_append.1 hd with hd1 | hd2
      · have hT := predef_pathComps root d hd1
        have hprT : pr <+: pathComps root ++ [d] := by
          rw [← hT]
          exact (List.mem_inits _ _).1 hpr2.1
        rcases List.prefix_concat_iff.1 hprT with h2 | h2
        · have h3 : (pathComps root).isPrefixOf f.1 = true := by
            rw [hfeq1, h2]
            exact List.isPrefixOf_iff_prefix.2 (List.prefix_append _ _)
          rw [hst1f f hf] at h3
          exact Bool.noConfusion h3
        · have hprdirs : pr ∈ lst.dirs :=
            hwfC _ hroot pr ((List.mem_inits _ _).2 h2) hprne
          exact hwfD f hfl (hfeq1 ▸ hprdirs)
      · have hd0 : d = [] := by simpa using hd2
        subst hd0
        have hT : pathComps (full_path root ([] ++ ['/'])) = pathComps root := hB
        have hprT : pr <+: pathComps root := by
          rw [← hT]
          exact (List.mem_inits _ _).1 hpr2.1
        have hprdirs : pr ∈ lst.dirs :=
          hwfC _ hroot pr ((List.mem_inits _ _).2 hprT) hprne
        exact hwfD f hfl (hfeq1 ▸ hprdirs)
  obtain ⟨fin, hfold, hff, hfd⟩ := localInitFold_spec root (predefDirs ++ [[]])
    (osRmtree lst (full_path root (chars "/"))) hblockAll
  have hdel : localDelete root predefDirs lst (chars "/") = .ok fin := by
    unfold localDelete
    rw [hex]
    simp only [Bool.not_true, Bool.false_eq_true, if_false]
    rw [if_pos (by simp [localIsdir]), if_pos (by simp)]
    exact hfold
  have hrcfin : pathComps root ∈ fin.dirs := by
    refine (hfd _).2 (Or.inl ⟨[], List.mem_append_right _ (by simp), ?_⟩)
    unfold dirChain
    rw [show full_path root ([] ++ ['/']) = root ++ ['/'] from rfl,
      pathComps_trailing_slash, List.mem_filter]
    exact ⟨(List.mem_inits _ _).2 (List.prefix_refl _), by simpa using hrcne⟩
  refine ⟨fin, hdel, localExists_of_mem_dirs root fin (chars "/")
    (by rw [hB]; exact hrcfin), ?_⟩
  intro dc hdc
  have hT := predef_pathComps root dc hdc
  have hTin : pathComps (full_path root (dc ++ ['/'])) ∈ fin.dirs := by
    refine (hfd _).2 (Or.inl ⟨dc, List.mem_append_left _ hdc, ?_⟩)
    unfold dirChain
    rw [List.mem_filter]
    refine ⟨(List.mem_inits _ _).2 (List.prefix_refl _), ?_⟩
    rw [hT]
    simp
  refine ⟨localExists_of_mem_dirs root fin (dc ++ ['/']) hTin, ?_⟩
  have hends : endsSlash (dc ++ ['/']) = true := by
    unfold endsSlash
    rw [List.getLast?_concat]
    simp
  have hnorm : normalizeDir (dc ++ ['/']) = dc ++ ['/'] := by
    unfold normalizeDir
    rw [hends]
    simp
  have hisdirN : localIsdir root fin (normalizeDir (dc ++ ['/'])) = true := by
    rw [hnorm]
    unfold localIsdir osIsdir
    simp [hTin]
  apply localListDirectory_ok_nil root fin (dc ++ ['/']) hisdirN
  rw [hnorm]
  apply localChildNames_eq_nil
  · intro c hc
    rcases (hfd c).1 hc with ⟨e, he, hce⟩ | h1
    · have hcc := List.mem_filter.1 hce
      have hle := ((List.mem_inits _ _).1 hcc.1).length_le
      have hTe : (pathComps (full_path root (e ++ ['/']))).length
          ≤ (pathComps root).length + 1 := by
        rcases List.mem_append.1 he with he1 | he2
        · rw [predef_pathComps root e he1]
          simp
        · have he0 : e = [] := by simpa using he2
          subst he0
          rw [show full_path root ([] ++ ['/']) = root ++ ['/'] from rfl,
            pathComps_trailing_slash]
          omega
      have hcl : c.length ≤ (pathComps root).length + 1 := le_trans hle hTe
      have hfalse : (c.length
          = (pathComps (full_path root (dc ++ ['/']))).length + 1 : Bool)
          = false := by
        rw [hT]
        simp
        omega
      simp [hfalse]
    · have h2 := (List.mem_filter.1 h1).2
      rw [hB] at h2
      have hfalse : (pathComps (full_path root (dc ++ ['/']))).isPrefixOf c
          = false := by
        cases hpc : (pathComps (full_path root (dc ++ ['/']))).isPrefixOf c with
        | false => rfl
        | true =>
          exfalso
          have hx : pathComps root <+: c := by
            have hy : pathComps root <+: pathComps (full_path root (dc ++ ['/'])) := by
              rw [hT]
              exact List.prefix_append _ _
            exact hy.trans (List.isPrefixOf_iff_prefix.1 hpc)
          rw [List.isPrefixOf_iff_prefix.2 hx] at h2
          simp at h2
      simp [hfalse]
  · intro f hfm
    rw [hff] at hfm
    have h2 := hst1f f hfm
    have hfalse : (pathComps (full_path root (dc ++ ['/']))).isPrefixOf f.1
        = false := by
      cases hpc : (pathComps (full_path root (dc ++ ['/']))).isPrefixOf f.1 with
      | false => rfl
      | true =>
        exfalso
        have hx : pathComps root <+: f.1 := by
          have hy : pathComps root <+: pathComps (full_path root (dc ++ ['/'])) := by
            rw [hT]
            exact List.prefix_append _ _
          exact hy.trans (List.isPrefixOf_iff_prefix.1 hpc)
        rw [List.isPrefixOf_iff_prefix.2 hx] at h2
        exact Bool.noConfusion h2
    simp [hfalse]

/-- C1 counterexample: on the flat-namespace backend, `exists` is a prefix
search over object keys, so deleting the file `data/a.txt` while the sibling
`data/a.txt.bak` is present leaves `exists("data/a.txt")` true — even though
`data/a.txt` is not root and not a predefined directory. The claim's
"delete(p) then exists(p) returns false" therefore fails as stated. -/
theorem c1_delete_counterexample :
    stripSlashes (chars "data/a.txt") ∉ predefDirs
    ∧ chars "data/a.txt" ≠ chars "/"
    ∧ s3Isdir exRoot
        (s3CreateFile exRoot (s3CreateFile exRoot s3Ex0 (chars "data/a.txt") 3)
          (chars "data/a.txt.bak") 4) (chars "data/a.txt") = false
    ∧ s3Exists exRoot
        (s3Delete exRoot predefDirs
          (s3CreateFile exRoot (s3CreateFile exRoot s3Ex0 (chars "data/a.txt") 3)
            (chars "data/a.txt.bak") 4)
          (chars "data/a.txt"))
        (chars "data/a.txt") = true := by
  decide

/-- C1 (corrected): `delete(p)` followed by `exists(p)`.
On the flat backend: (1) deleting a nonexistent path is a no-op; (2) deleting
a non-predefined, non-root directory makes `exists` false; (3) deleting a file
makes `exists` false provided no OTHER key strictly extends the deleted key
(because `exists` is a prefix search, an aliasing key such as `p + ".bak"`
keeps `exists(p)` true — see the counterexample); (4) deleting a predefined
directory self-heals: it exists again and lists empty; (5) deleting the root
re-initializes: root and every predefined directory exist and list empty.
On the hierarchical backend the analogous five clauses hold unconditionally
for files ((6)–(8)), and the self-healing clauses (9)–(10) hold for every
well-formed state (directories closed under parents, no file at a directory
path, root directory present). -/
theorem c1_delete_then_exists (root : List Char) (pd : List (List Char))
    (st : S3State) (lst : LocalState) (p : List Char) :
    (s3Exists root st p = false → s3Delete root pd st p = st)
    ∧ (s3Isdir root st p = true → p ≠ chars "/" → p ≠ [] → stripSlashes p ∉ pd →
        s3Exists root (s3Delete root pd st p) p = false)
    ∧ (s3Isdir root st p = false →
        (∀ o ∈ st.objs, (full_path root p).isPrefixOf o.1 = true →
          o.1 = full_path root p) →
        s3Exists root (s3Delete root pd st p) p = false)
    ∧ (s3Isdir root st p = true → p ≠ chars "/" → p ≠ [] → stripSlashes p ∈ pd →
        s3Exists root (s3Delete root pd st p) p = true
        ∧ s3ListDirectory root (s3Delete root pd st p) p true false = .ok [])
    ∧ (s3Exists root st (chars "/") = true →
        s3Exists root (s3Delete root predefDirs st (chars "/")) (chars "/") = true
        ∧ ∀ dc ∈ predefDirs,
            s3Exists root (s3Delete root predefDirs st (chars "/"))
              (dc ++ ['/']) = true
            ∧ s3ListDirectory root (s3Delete root predefDirs st (chars "/"))
                (dc ++ ['/']) true false = .ok [])
    ∧ (localExists root lst p = false → localDelete root pd lst p = .ok lst)
    ∧ (localIsdir root lst p = true → localExists root lst p = true →
        p ≠ chars "/" → p ≠ [] → stripSlashes p ∉ pd →
        ∃ lst1, localDelete root pd lst p = .ok lst1
          ∧ localExists root lst1 p = false)
    ∧ (localIsdir root lst p = false → localExists root lst p = true →
        ∃ lst1, localDelete root pd lst p = .ok lst1
          ∧ localExists root lst1 p = false)
    ∧ (LocalWF lst → localIsdir root lst p = true → p ≠ chars "/" → p ≠ [] →
        stripSlashes p ∈ pd →
        ∃ lst1, localDelete root pd lst p = .ok lst1
          ∧ localExists root lst1 p = true
          ∧ localListDirectory root lst1 p true false = .ok [])
    ∧ (LocalWF lst → pathComps root ∈ lst.dirs →
        ∃ lst1, localDelete root predefDirs lst (chars "/") = .ok lst1
          ∧ localExists root lst1 (chars "/") = true
          ∧ ∀ dc ∈ predefDirs,
              localExists root lst1 (dc ++ ['/']) = true
              ∧ localListDirectory root lst1 (dc ++ ['/']) true false = .ok []) := by
  refine ⟨fun h => by simp [s3Delete, h],
    fun h1 h2 h3 h4 => s3Delete_dir_exists_false root pd st p h1 h2 h3 h4,
    fun h1 h2 => s3Delete_file_exists_false root pd st p h1 h2,
    fun h1 h2 h3 h4 => s3Delete_predef_selfheal root pd st p h1 h2 h3 h4,
    fun h => s3Delete_root_selfheal root st h,
    fun h => by simp [localDelete, h],
    fun h1 h2 h3 h4 h5 => localDelete_dir_exists_false root pd lst p h1 h2 h3 h4 h5,
    fun h1 h2 => localDelete_file_exists_false root pd lst p h1 h2,
    fun hw h1 h2 h3 h4 => localDelete_predef_selfheal root pd lst p hw h1 h2 h3 h4,
    fun hw h => localDelete_root_selfheal root lst hw h⟩

/-- Witness for C1: the corrected theorem evaluated at a concrete state with
the two files of the listing scenario, deleting `data/test/b.txt` on both
backends (no aliasing key extends it, so `exists` turns false). -/
theorem c1_delete_then_exists_witness :
    s3Exists exRoot (s3Delete exRoot predefDirs s3Ex1 (chars "data/test/b.txt"))
        (chars "data/test/b.txt") = false
    ∧ ∃ lst1, localDelete exRoot predefDirs localEx1 (chars "data/test/b.txt")
          = .ok lst1
        ∧ localExists exRoot lst1 (chars "data/test/b.txt") = false :=
  ⟨(c1_delete_then_exists exRoot predefDirs s3Ex1 localEx1
      (chars "data/test/b.txt")).2.2.1 (by decide) (by decide),
   (c1_delete_then_exists exRoot predefDirs s3Ex1 localEx1
      (chars "data/test/b.txt")).2.2.2.2.2.2.2.1 (by decide) (by decide)⟩

end DecodeUserAPI
